import Mathlib

/-!
Verification of the swim-safe forecast pipeline.

This file gives a shallow embedding, in Lean 4, of the algorithmic core of
the repository: the color classifier and crop transform
(`src/src/services/ImageProcessorService.ts`), the alert classifier,
template mutator and resampler (`HTMLGeneratorService`, the DTO-typed
revision in `src/unnamed/part_004`), the email compressor, and the
single-flight guard of `Router.handleForecastImage`
(`src/src/services/Router.ts`).  JavaScript numbers are modelled as `ℚ`
(all the arithmetic the theorems touch is exact in IEEE doubles at the
inputs used), buffers of decoded pixel data as `List Nat`, and fallible
operations as `Except`.
-/

namespace SwinSafe

/-! ### Color classifier (`ImageProcessorService.detectColors`) -/

/-- The per-pixel red test of `detectColors`:
`r > 150 && r > g * 1.5 && r > b * 1.5`.  Over the integer channel values
`r > g * 1.5` is exactly `2 * r > 3 * g` (the double computation
`g * 1.5` is exact for the 8-bit channel range). -/
def isRedPixel (p : Nat × Nat × Nat) : Bool :=
  decide (150 < p.1 ∧ 3 * p.2.1 < 2 * p.1 ∧ 3 * p.2.2 < 2 * p.1)

/-- The per-pixel yellow test of `detectColors`: it sits on the `else`
branch of the red ratio test inside the `r > 150` gate, then requires
`g > 150 && b < 150` and `diff >= -50 && diff <= 50` where
`diff = r - g` (modelled in `ℤ`; the code avoids `Math.abs`). -/
def isYellowPixel (p : Nat × Nat × Nat) : Bool :=
  decide (150 < p.1 ∧ ¬(3 * p.2.1 < 2 * p.1 ∧ 3 * p.2.2 < 2 * p.1) ∧
    150 < p.2.1 ∧ p.2.2 < 150 ∧
    -50 ≤ (p.1 : ℤ) - p.2.1 ∧ (p.1 : ℤ) - p.2.1 ≤ 50)

/-- The strided pixel walk of `detectColors`: the loop
`for (let i = 0; i < dataLength; i += channels)` reads `data[i]`,
`data[i+1]`, `data[i+2]` at each step.  `pixelTriples` lists the `(r,g,b)`
triples that walk visits (out-of-range reads are `undefined` in JS and
compare as false everywhere; they are modelled as `0`, which the theorems
exclude by well-formedness of the raw buffer). -/
def pixelTriples (channels : Nat) (data : List Nat) : List (Nat × Nat × Nat) :=
  if h : data = [] ∨ channels = 0 then []
  else
    (data.getD 0 0, data.getD 1 0, data.getD 2 0) :: pixelTriples channels (data.drop channels)
termination_by data.length
decreasing_by
  push_neg at h
  have hd : data.length ≠ 0 := by simpa [List.length_eq_zero] using h.1
  simp only [List.length_drop]
  omega

/-- The counting loop of `detectColors`: per visited pixel, increment
`redCount` when the red test passes, `else` increment `yellowCount` when
the yellow test passes. -/
def countRedYellow (channels : Nat) (data : List Nat) : Nat × Nat :=
  if h : data = [] ∨ channels = 0 then (0, 0)
  else
    let r := data.getD 0 0
    let g := data.getD 1 0
    let b := data.getD 2 0
    let rest := countRedYellow channels (data.drop channels)
    if 150 < r then
      if 3 * g < 2 * r ∧ 3 * b < 2 * r then (rest.1 + 1, rest.2)
      else if 150 < g ∧ b < 150 ∧ (-50 ≤ (r : ℤ) - g ∧ (r : ℤ) - g ≤ 50) then
        (rest.1, rest.2 + 1)
      else rest
    else rest
termination_by data.length
decreasing_by
  push_neg at h
  have hd : data.length ≠ 0 := by simpa [List.length_eq_zero] using h.1
  simp only [List.length_drop]
  omega

/-- Rounding to two decimal places: `parseFloat(x.toFixed(2))`.
`toFixed` picks the closer scaled integer and, on ties, the larger one,
which for the non-negative percentages at hand is `round` (floor of
`x * 100 + 1/2`). -/
def round2 (q : ℚ) : ℚ := (round (q * 100) : ℤ) / 100

/-- The `ColorDetectionResult` record returned by `detectColors`. -/
structure ColorDetectionResult where
  hasRed : Bool
  hasYellow : Bool
  redPercentage : ℚ
  yellowPercentage : ℚ
  totalPixels : Nat
deriving DecidableEq, Repr

/-- `ImageProcessorService.detectColors`, after `sharp(image).raw()` has
decoded the image to `info.width`, `info.height`, `info.channels` and the
flat channel buffer `data`: count red and yellow pixels, form the raw
percentages `count / totalPixels * 100`, compare them with the threshold,
and store them rounded to two decimals. -/
def detectColors (width height channels : Nat) (data : List Nat) (threshold : ℚ) :
    ColorDetectionResult :=
  let totalPixels := width * height
  let counts := countRedYellow channels data
  let redPercentage : ℚ := counts.1 / totalPixels * 100
  let yellowPercentage : ℚ := counts.2 / totalPixels * 100
  { hasRed := decide (threshold ≤ redPercentage)
    hasYellow := decide (threshold ≤ yellowPercentage)
    redPercentage := round2 redPercentage
    yellowPercentage := round2 yellowPercentage
    totalPixels := totalPixels }

/-! ### Alert classifier (`HTMLGeneratorService.determineAlertLevel`) -/

/-- The `AlertLevel` union type of `HTMLGeneratorDTO`. -/
inductive AlertLevel where
  | high
  | moderate
  | low
deriving DecidableEq, Repr

/-- The `AlertStatus` record of `HTMLGeneratorDTO`. -/
structure AlertStatus where
  level : AlertLevel
  label : String
  label_en : String
  label_es : String
deriving DecidableEq, Repr

/-- The fixed internal constant `minThreshold = 0.5` of
`determineAlertLevel`. -/
def minThreshold : ℚ := 1 / 2

/-- `HTMLGeneratorService.determineAlertLevel`: first-match-wins priority
red > yellow > calm against the internal `minThreshold`. -/
def determineAlertLevel (detection : ColorDetectionResult) : AlertStatus :=
  if minThreshold < detection.redPercentage then
    { level := .high, label := "STRONG CURRENTS",
      label_en := "Strong Currents", label_es := "Corrientes Fuertes" }
  else if minThreshold < detection.yellowPercentage then
    { level := .moderate, label := "MODERATE CURRENTS",
      label_en := "Moderate Currents", label_es := "Corrientes Moderadas" }
  else
    { level := .low, label := "CALM CONDITIONS",
      label_en := "Calm Conditions", label_es := "Condiciones Calmas" }

/-! ### Helper lemmas on the counting loop -/

/-- One step of the counting loop, expressed through the two pixel tests. -/
theorem countStep_eq (r g b : Nat) (rest : Nat × Nat) :
    (if 150 < r then
      if 3 * g < 2 * r ∧ 3 * b < 2 * r then (rest.1 + 1, rest.2)
      else if 150 < g ∧ b < 150 ∧ (-50 ≤ (r : ℤ) - g ∧ (r : ℤ) - g ≤ 50) then
        (rest.1, rest.2 + 1)
      else rest
    else rest) =
      (rest.1 + (if isRedPixel (r, g, b) then 1 else 0),
       rest.2 + (if isYellowPixel (r, g, b) then 1 else 0)) := by
  by_cases h1 : 150 < r <;>
    by_cases h2 : 3 * g < 2 * r ∧ 3 * b < 2 * r <;>
      by_cases h3 : 150 < g ∧ b < 150 ∧ (-50 ≤ (r : ℤ) - g ∧ (r : ℤ) - g ≤ 50) <;>
        simp [isRedPixel, isYellowPixel, h1, h2, h3] <;>
          (try tauto) <;> (try (split <;> simp))

/-- The counting loop counts exactly the pixels passing the red test and
the pixels passing the yellow test. -/
theorem countRedYellow_eq_countP (c : Nat) (data : List Nat) :
    countRedYellow c data =
      ((pixelTriples c data).countP isRedPixel,
       (pixelTriples c data).countP isYellowPixel) := by
  have H : ∀ (n : Nat) (d : List Nat), d.length ≤ n →
      countRedYellow c d =
        ((pixelTriples c d).countP isRedPixel,
         (pixelTriples c d).countP isYellowPixel) := by
    intro n
    induction n with
    | zero =>
      intro d hd
      have hnil : d = [] := by
        simpa [List.length_eq_zero] using Nat.le_zero.mp hd
      subst hnil
      simp [countRedYellow, pixelTriples]
    | succ n ih =>
      intro d hd
      by_cases h : d = [] ∨ c = 0
      · rw [countRedYellow, pixelTriples]
        simp [h]
      · push_neg at h
        have hdrop : (d.drop c).length ≤ n := by
          have hd1 : d.length ≠ 0 := by
            simpa [List.length_eq_zero] using h.1
          simp only [List.length_drop]
          omega
        rw [countRedYellow, pixelTriples]
        rw [dif_neg (by tauto), dif_neg (by tauto)]
        simp only [List.countP_cons, ih (d.drop c) hdrop]
        exact countStep_eq _ _ _ _
  exact H data.length data le_rfl

/-! ### Claim theorems: color classifier pixel rules -/

/-- C1: in `detectColors`, a visited pixel is counted as red iff
`R > 150 ∧ R > 1.5·G ∧ R > 1.5·B`, counted as yellow iff
`R > 150 ∧ G > 150 ∧ B < 150 ∧ |R − G| ≤ 50`, no pixel is counted in both
categories, and the loop counts exactly the pixels passing these tests. -/
theorem detectColors_pixel_rules (c : Nat) (data : List Nat) (r g b : Nat) :
    (isRedPixel (r, g, b) = true ↔
      (150 : ℚ) < r ∧ 3 / 2 * g < (r : ℚ) ∧ 3 / 2 * b < (r : ℚ)) ∧
    (isYellowPixel (r, g, b) = true ↔
      150 < r ∧ 150 < g ∧ b < 150 ∧ |(r : ℤ) - g| ≤ 50) ∧
    ¬(isRedPixel (r, g, b) = true ∧ isYellowPixel (r, g, b) = true) ∧
    countRedYellow c data =
      ((pixelTriples c data).countP isRedPixel,
       (pixelTriples c data).countP isYellowPixel) := by
  refine ⟨?_, ?_, ?_, countRedYellow_eq_countP c data⟩
  · simp only [isRedPixel, decide_eq_true_eq]
    constructor
    · rintro ⟨h1, h2, h3⟩
      refine ⟨by exact_mod_cast h1, ?_, ?_⟩
      · have : (3 * g : ℚ) < 2 * r := by exact_mod_cast h2
        linarith
      · have : (3 * b : ℚ) < 2 * r := by exact_mod_cast h3
        linarith
    · rintro ⟨h1, h2, h3⟩
      refine ⟨by exact_mod_cast h1, ?_, ?_⟩
      · have : (3 * g : ℚ) < 2 * r := by linarith
        exact_mod_cast this
      · have : (3 * b : ℚ) < 2 * r := by linarith
        exact_mod_cast this
  · simp only [isYellowPixel, decide_eq_true_eq]
    constructor
    · rintro ⟨h1, _, h3, h4, h5, h6⟩
      exact ⟨h1, h3, h4, abs_le.mpr ⟨by omega, by omega⟩⟩
    · rintro ⟨h1, h3, h4, habs⟩
      have h56 := abs_le.mp habs
      refine ⟨h1, ?_, h3, h4, h56.1, h56.2⟩
      rintro ⟨hg, -⟩
      omega
  · simp only [isRedPixel, isYellowPixel, decide_eq_true_eq]
    tauto

/-! ### Helper lemmas on rounding and percentages -/

/-- Unfolding of the counting loop at `channels = 3` on one pixel. -/
theorem countRedYellow_cons3 (r g b : Nat) (rest : List Nat) :
    countRedYellow 3 (r :: g :: b :: rest) =
      ((countRedYellow 3 rest).1 + (if isRedPixel (r, g, b) then 1 else 0),
       (countRedYellow 3 rest).2 + (if isYellowPixel (r, g, b) then 1 else 0)) := by
  rw [countRedYellow]
  rw [dif_neg (by simp)]
  simpa using countStep_eq r g b (countRedYellow 3 rest)

theorem round2_mono {a b : ℚ} (hab : a ≤ b) : round2 a ≤ round2 b := by
  unfold round2
  have : round (a * 100) ≤ round (b * 100) := by
    rw [round_eq, round_eq]
    exact Int.floor_mono (by linarith)
  have h100 : (0 : ℚ) < 100 := by norm_num
  rw [div_le_div_iff h100 h100]
  exact_mod_cast mul_le_mul_of_nonneg_right this (by norm_num)

theorem round2_le_add (q : ℚ) : round2 q ≤ q + 1 / 200 := by
  unfold round2
  have h := round_le_add_half (q * 100)
  rw [div_le_iff (by norm_num : (0:ℚ) < 100)]
  linarith

theorem round2_nonneg {q : ℚ} (hq : 0 ≤ q) : 0 ≤ round2 q := by
  have h := round2_mono hq
  simpa [round2] using h

theorem round2_le_hundred {q : ℚ} (hq : q ≤ 100) : round2 q ≤ 100 := by
  have h := round2_mono hq
  have h100 : round2 (100 : ℚ) = 100 := by
    norm_num [round2, round_eq]
  linarith [h100 ▸ h]

/-- Red and yellow are mutually exclusive, so together the two counts
cover each visited pixel at most once. -/
theorem countP_red_add_yellow_le (l : List (Nat × Nat × Nat)) :
    l.countP isRedPixel + l.countP isYellowPixel ≤ l.length := by
  induction l with
  | nil => simp
  | cons p l ih =>
    simp only [List.countP_cons, List.length_cons]
    have hex : ¬(isRedPixel p = true ∧ isYellowPixel p = true) := by
      simp only [isRedPixel, isYellowPixel, decide_eq_true_eq]
      tauto
    by_cases hr : isRedPixel p <;> by_cases hy : isYellowPixel p <;>
      simp [hr, hy] at hex ⊢ <;> omega

/-- The strided walk visits at most `n` pixels when the buffer holds at
most `n * channels` values. -/
theorem pixelTriples_length_le (c : Nat) :
    ∀ (n : Nat) (data : List Nat), data.length ≤ n * c →
      (pixelTriples c data).length ≤ n := by
  intro n
  induction n with
  | zero =>
    intro data hd
    have hnil : data = [] := by simpa using hd
    subst hnil
    rw [pixelTriples]
    simp
  | succ n ih =>
    intro data hd
    by_cases h : data = [] ∨ c = 0
    · rw [pixelTriples, dif_pos h]
      simp
    · rw [pixelTriples, dif_neg h]
      push_neg at h
      have hc : 0 < c := Nat.pos_of_ne_zero h.2
      have hd' : data.length ≤ n * c + c := by
        simpa [Nat.succ_mul] using hd
      have : (data.drop c).length ≤ n * c := by
        simp only [List.length_drop]
        omega
      simpa using ih (data.drop c) this

/-! ### Claim theorems: detection result invariants -/

/-- The raw (unrounded) image used in the C3 counterexample: a 3×1 image,
one red pixel `(200,0,0)` and two black pixels, three channels. -/
def c3Data : List Nat := [200, 0, 0, 0, 0, 0, 0, 0, 0]

/-- C3 counterexample: at threshold `33.333` on a 3×1 image with exactly
one red pixel, the raw red percentage is `100/3 ≈ 33.3333`, so `hasRed`
is true, yet the stored two-decimal field is `33.33 < 33.333`: `hasRed`
is not `storedPercentage ≥ threshold`. -/
theorem detectColors_hasRed_stored_counterexample :
    (detectColors 3 1 3 c3Data (33333 / 1000)).hasRed = true ∧
    ¬(33333 / 1000 ≤ (detectColors 3 1 3 c3Data (33333 / 1000)).redPercentage) := by
  have hc : countRedYellow 3 c3Data = (1, 0) := by
    show countRedYellow 3 (200 :: 0 :: 0 :: 0 :: 0 :: 0 :: 0 :: 0 :: 0 :: []) = (1, 0)
    rw [countRedYellow_cons3, countRedYellow_cons3, countRedYellow_cons3]
    rw [countRedYellow]
    norm_num [isRedPixel, isYellowPixel]
  constructor
  · simp only [detectColors, hc]
    norm_num
  · simp only [detectColors, hc]
    norm_num [round2, round_eq]

/-- C3, amended: `hasRed`/`hasYellow` compare the threshold with the raw
percentage `count / totalPixels * 100` before rounding, and the stored
percentage fields are those raw percentages rounded to two decimals. -/
theorem detectColors_fields (w h c : Nat) (data : List Nat) (t : ℚ) :
    (detectColors w h c data t).redPercentage =
        round2 (((pixelTriples c data).countP isRedPixel : ℚ) / ((w * h : Nat) : ℚ) * 100) ∧
    (detectColors w h c data t).yellowPercentage =
        round2 (((pixelTriples c data).countP isYellowPixel : ℚ) / ((w * h : Nat) : ℚ) * 100) ∧
    ((detectColors w h c data t).hasRed = true ↔
        t ≤ ((pixelTriples c data).countP isRedPixel : ℚ) / ((w * h : Nat) : ℚ) * 100) ∧
    ((detectColors w h c data t).hasYellow = true ↔
        t ≤ ((pixelTriples c data).countP isYellowPixel : ℚ) / ((w * h : Nat) : ℚ) * 100) := by
  simp [detectColors, countRedYellow_eq_countP]

/-- The flat pixel data of `n` pure-yellow `(200,200,0)` pixels. -/
def yellowFlat : Nat → List Nat
  | 0 => []
  | n + 1 => 200 :: 200 :: 0 :: yellowFlat n

theorem countRedYellow_yellowFlat (n : Nat) :
    countRedYellow 3 (yellowFlat n) = (0, n) := by
  induction n with
  | zero =>
    rw [yellowFlat, countRedYellow]
    simp
  | succ n ih =>
    rw [yellowFlat, countRedYellow_cons3, ih]
    norm_num [isRedPixel, isYellowPixel]

/-- The image of the C4 counterexample: 8×4 = 32 pixels, one red pixel
and 31 yellow pixels. -/
def c4Data : List Nat := 200 :: 0 :: 0 :: yellowFlat 31

/-- C4 counterexample: on the 32-pixel image with 1 red and 31 yellow
pixels the raw percentages are `3.125` and `96.875`; both round up
(`3.13` and `96.88`), so the stored fields sum to `100.01 > 100`. -/
theorem detectColors_percentage_sum_counterexample :
    ¬((detectColors 8 4 3 c4Data (1 / 2)).redPercentage +
        (detectColors 8 4 3 c4Data (1 / 2)).yellowPercentage ≤ 100) := by
  have hc : countRedYellow 3 c4Data = (1, 31) := by
    rw [c4Data, countRedYellow_cons3, countRedYellow_yellowFlat]
    norm_num [isRedPixel, isYellowPixel]
  simp only [detectColors, hc]
  norm_num [round2, round_eq]

/-- C4, amended: the stored percentage fields each lie in `[0, 100]` and
the raw percentages sum to at most `100`; because each stored field is
rounded to two decimals, their sum is only bounded by `100 + 1/100`
(and that bound is attained, see the counterexample). -/
theorem detectColors_percentage_invariant (w h c : Nat) (data : List Nat) (t : ℚ)
    (hwh : 0 < w * h) (hlen : data.length = w * h * c) :
    0 ≤ (detectColors w h c data t).redPercentage ∧
    (detectColors w h c data t).redPercentage ≤ 100 ∧
    0 ≤ (detectColors w h c data t).yellowPercentage ∧
    (detectColors w h c data t).yellowPercentage ≤ 100 ∧
    ((countRedYellow c data).1 : ℚ) / ((w * h : Nat) : ℚ) * 100 +
        ((countRedYellow c data).2 : ℚ) / ((w * h : Nat) : ℚ) * 100 ≤ 100 ∧
    (detectColors w h c data t).redPercentage +
        (detectColors w h c data t).yellowPercentage ≤ 100 + 1 / 100 := by
  have hT : (0 : ℚ) < ((w * h : Nat) : ℚ) := by exact_mod_cast hwh
  have hcount := countRedYellow_eq_countP c data
  have hlenle : (pixelTriples c data).length ≤ w * h :=
    pixelTriples_length_le c (w * h) data (by omega)
  have hsum : (countRedYellow c data).1 + (countRedYellow c data).2 ≤ w * h := by
    rw [hcount]
    exact le_trans (countP_red_add_yellow_le _) hlenle
  have hR : ((countRedYellow c data).1 : ℚ) ≤ ((w * h : Nat) : ℚ) := by
    exact_mod_cast Nat.le_trans (Nat.le_add_right _ _) hsum
  have hY : ((countRedYellow c data).2 : ℚ) ≤ ((w * h : Nat) : ℚ) := by
    exact_mod_cast Nat.le_trans (Nat.le_add_left _ _) hsum
  have hRY : ((countRedYellow c data).1 : ℚ) + ((countRedYellow c data).2 : ℚ) ≤
      ((w * h : Nat) : ℚ) := by exact_mod_cast hsum
  have hR0 : (0 : ℚ) ≤ ((countRedYellow c data).1 : ℚ) := by positivity
  have hY0 : (0 : ℚ) ≤ ((countRedYellow c data).2 : ℚ) := by positivity
  have hrawR0 : (0 : ℚ) ≤ ((countRedYellow c data).1 : ℚ) / ((w * h : Nat) : ℚ) * 100 := by
    positivity
  have hrawY0 : (0 : ℚ) ≤ ((countRedYellow c data).2 : ℚ) / ((w * h : Nat) : ℚ) * 100 := by
    positivity
  have hrawR100 : ((countRedYellow c data).1 : ℚ) / ((w * h : Nat) : ℚ) * 100 ≤ 100 := by
    rw [div_mul_eq_mul_div, div_le_iff hT]
    linarith
  have hrawY100 : ((countRedYellow c data).2 : ℚ) / ((w * h : Nat) : ℚ) * 100 ≤ 100 := by
    rw [div_mul_eq_mul_div, div_le_iff hT]
    linarith
  have hrawsum : ((countRedYellow c data).1 : ℚ) / ((w * h : Nat) : ℚ) * 100 +
      ((countRedYellow c data).2 : ℚ) / ((w * h : Nat) : ℚ) * 100 ≤ 100 := by
    rw [div_mul_eq_mul_div, div_mul_eq_mul_div, div_add_div_same, div_le_iff hT]
    linarith
  refine ⟨?_, ?_, ?_, ?_, hrawsum, ?_⟩
  · simpa [detectColors] using round2_nonneg hrawR0
  · simpa [detectColors] using round2_le_hundred hrawR100
  · simpa [detectColors] using round2_nonneg hrawY0
  · simpa [detectColors] using round2_le_hundred hrawY100
  · have h1 := round2_le_add (((countRedYellow c data).1 : ℚ) / ((w * h : Nat) : ℚ) * 100)
    have h2 := round2_le_add (((countRedYellow c data).2 : ℚ) / ((w * h : Nat) : ℚ) * 100)
    simp only [detectColors]
    linarith

/-- Witness for C4 (amended) at a 1×1 single-pixel image. -/
theorem detectColors_percentage_invariant_witness :
    0 < 1 * 1 ∧ ([200, 0, 0] : List Nat).length = 1 * 1 * 3 ∧
    (0 ≤ (detectColors 1 1 3 [200, 0, 0] (1 / 2)).redPercentage ∧
      (detectColors 1 1 3 [200, 0, 0] (1 / 2)).redPercentage ≤ 100 ∧
      0 ≤ (detectColors 1 1 3 [200, 0, 0] (1 / 2)).yellowPercentage ∧
      (detectColors 1 1 3 [200, 0, 0] (1 / 2)).yellowPercentage ≤ 100 ∧
      ((countRedYellow 3 [200, 0, 0]).1 : ℚ) / ((1 * 1 : Nat) : ℚ) * 100 +
          ((countRedYellow 3 [200, 0, 0]).2 : ℚ) / ((1 * 1 : Nat) : ℚ) * 100 ≤ 100 ∧
      (detectColors 1 1 3 [200, 0, 0] (1 / 2)).redPercentage +
          (detectColors 1 1 3 [200, 0, 0] (1 / 2)).yellowPercentage ≤ 100 + 1 / 100) :=
  ⟨by norm_num, by norm_num,
    detectColors_percentage_invariant 1 1 3 [200, 0, 0] (1 / 2)
      (by norm_num) (by norm_num)⟩

/-! ### Claim theorems: alert classifier -/

/-- C2: `determineAlertLevel` applies first-match-wins priority on the
detection percentages against the internal `minThreshold`: red beats
yellow beats calm, with the bilingual labels of the source; in particular
when both percentages exceed the threshold the result is Red. -/
theorem determineAlertLevel_priority (d : ColorDetectionResult) :
    (minThreshold < d.redPercentage →
      determineAlertLevel d =
        { level := .high, label := "STRONG CURRENTS",
          label_en := "Strong Currents", label_es := "Corrientes Fuertes" }) ∧
    (d.redPercentage ≤ minThreshold → minThreshold < d.yellowPercentage →
      determineAlertLevel d =
        { level := .moderate, label := "MODERATE CURRENTS",
          label_en := "Moderate Currents", label_es := "Corrientes Moderadas" }) ∧
    (d.redPercentage ≤ minThreshold → d.yellowPercentage ≤ minThreshold →
      determineAlertLevel d =
        { level := .low, label := "CALM CONDITIONS",
          label_en := "Calm Conditions", label_es := "Condiciones Calmas" }) ∧
    (minThreshold < d.redPercentage → minThreshold < d.yellowPercentage →
      (determineAlertLevel d).level = .high) := by
  refine ⟨fun h1 => ?_, fun h1 h2 => ?_, fun h1 h2 => ?_, fun h1 _ => ?_⟩
  · simp [determineAlertLevel, h1]
  · simp [determineAlertLevel, not_lt.mpr h1, h2]
  · simp [determineAlertLevel, not_lt.mpr h1, not_lt.mpr h2]
  · simp [determineAlertLevel, h1]

/-- Witness for C2 at a detection with both percentages above threshold. -/
theorem determineAlertLevel_priority_witness :
    minThreshold < (2 : ℚ) ∧
      determineAlertLevel
        { hasRed := true, hasYellow := true, redPercentage := 2,
          yellowPercentage := 2, totalPixels := 100 } =
        { level := .high, label := "STRONG CURRENTS",
          label_en := "Strong Currents", label_es := "Corrientes Fuertes" } :=
  ⟨by norm_num [minThreshold],
    (determineAlertLevel_priority _).1 (by norm_num [minThreshold])⟩

/-- C9: `determineAlertLevel` depends only on the `redPercentage` and
`yellowPercentage` fields of its input; `hasRed`, `hasYellow`,
`totalPixels` and any detection-time threshold never influence the
result. -/
theorem determineAlertLevel_noninterference (d₁ d₂ : ColorDetectionResult)
    (hr : d₁.redPercentage = d₂.redPercentage)
    (hy : d₁.yellowPercentage = d₂.yellowPercentage) :
    determineAlertLevel d₁ = determineAlertLevel d₂ := by
  simp only [determineAlertLevel, hr, hy]

/-- Witness for C9: two detections agreeing only on the percentages. -/
theorem determineAlertLevel_noninterference_witness :
    determineAlertLevel
        { hasRed := true, hasYellow := false, redPercentage := 1,
          yellowPercentage := 0, totalPixels := 5 } =
      determineAlertLevel
        { hasRed := false, hasYellow := true, redPercentage := 1,
          yellowPercentage := 0, totalPixels := 999 } :=
  determineAlertLevel_noninterference _ _ rfl rfl

/-! ### Crop transform (`ImageProcessorService.cropImage`) -/

/-- A decoded image as the crop transform sees it: the metadata
dimensions reported by `sharp().metadata()` (absent when unreadable) and
the pixel grid. -/
structure SharpImage where
  metaWidth : Option Nat
  metaHeight : Option Nat
  rows : List (List (Nat × Nat × Nat))
deriving DecidableEq, Repr

/-- sharp `extract`: validates that the requested region is strictly
positive and fits inside the image, then slices the requested rows and
columns; otherwise the extraction fails (sharp raises
`extract_area: bad extract area`).  The crop transform never clamps, so a
non-positive height reaches this validation and fails here. -/
def extractArea (rows : List (List (Nat × Nat × Nat))) (imgWidth imgHeight : Nat)
    (left top width : Nat) (height : ℤ) :
    Except String (List (List (Nat × Nat × Nat))) :=
  if 0 < width ∧ 0 < height ∧ left + width ≤ imgWidth ∧ top + height ≤ (imgHeight : ℤ) then
    .ok (((rows.drop top).take height.toNat).map fun row => (row.drop left).take width)
  else
    .error "extract_area: bad extract area"

/-- `ImageProcessorService.cropImage`: read the metadata dimensions
(JS truthiness makes `0` behave like `undefined` in the
`if (!width || !height)` guard), compute
`newHeight = height - cropTop - cropBottom` with no clamping, and extract
the sub-rectangle `[0, cropTop, width, newHeight]`. -/
def cropImage (img : SharpImage) (cropTop cropBottom : Nat) :
    Except String SharpImage :=
  let width := img.metaWidth.getD 0
  let height := img.metaHeight.getD 0
  if width = 0 ∨ height = 0 then
    .error "No se pudo obtener las dimensiones de la imagen"
  else
    let newHeight : ℤ := (height : ℤ) - cropTop - cropBottom
    match extractArea img.rows width height 0 cropTop width newHeight with
    | .ok rows => .ok { metaWidth := some width, metaHeight := some newHeight.toNat, rows := rows }
    | .error e => .error e

theorem take_width_map_id {w : Nat} (l : List (List (Nat × Nat × Nat)))
    (hl : ∀ row ∈ l, row.length = w) :
    l.map (fun row => (row.drop 0).take w) = l := by
  induction l with
  | nil => simp
  | cons row l ih =>
    have hrow : row.length = w := hl row (by simp)
    have hhead : (row.drop 0).take w = row := by
      rw [List.drop_zero, ← hrow, List.take_length]
    simp only [List.map_cons, hhead]
    rw [ih fun r hr => hl r (by simp [hr])]

/-- C5: for readable (truthy) metadata dimensions `w × h` and a
well-formed pixel grid, `cropImage` keeps the width, shifts the content
up by `top` and produces height `h - top - bottom`; it fails when the
margins leave no positive height (no clamping), `crop img 0 0` returns
the image unchanged, and unreadable dimensions always fail. -/
theorem cropImage_spec (img : SharpImage) (w h : Nat)
    (hw : img.metaWidth = some w) (hh : img.metaHeight = some h)
    (hwpos : 0 < w) (hhpos : 0 < h)
    (hrows : img.rows.length = h)
    (hcols : ∀ row ∈ img.rows, row.length = w) :
    (∀ top bottom : Nat, top + bottom < h →
      cropImage img top bottom =
        .ok { metaWidth := some w, metaHeight := some (h - top - bottom),
              rows := (img.rows.drop top).take (h - top - bottom) }) ∧
    (∀ top bottom : Nat, h ≤ top + bottom →
      ∃ e, cropImage img top bottom = .error e) ∧
    cropImage img 0 0 = .ok img ∧
    (∀ (img2 : SharpImage) (top bottom : Nat),
      img2.metaWidth.getD 0 = 0 ∨ img2.metaHeight.getD 0 = 0 →
      cropImage img2 top bottom = .error "No se pudo obtener las dimensiones de la imagen") := by
  have hok : ∀ top bottom : Nat, top + bottom < h →
      cropImage img top bottom =
        .ok { metaWidth := some w, metaHeight := some (h - top - bottom),
              rows := (img.rows.drop top).take (h - top - bottom) } := by
    intro top bottom htb
    unfold cropImage extractArea
    rw [hw, hh]
    simp only [Option.getD_some]
    rw [if_neg (by omega)]
    rw [if_pos (by constructor <;> omega)]
    have htoNat : ((h : ℤ) - top - bottom).toNat = h - top - bottom := by omega
    have hmap : ((img.rows.drop top).take (h - top - bottom)).map
        (fun row => (row.drop 0).take w) = (img.rows.drop top).take (h - top - bottom) := by
      refine take_width_map_id _ fun row hr => hcols row ?_
      exact List.mem_of_mem_drop (List.mem_of_mem_take hr)
    simp only [htoNat, hmap]
  refine ⟨hok, ?_, ?_, ?_⟩
  · intro top bottom htb
    refine ⟨"extract_area: bad extract area", ?_⟩
    unfold cropImage extractArea
    rw [hw, hh]
    simp only [Option.getD_some]
    rw [if_neg (by omega)]
    rw [if_neg (by omega)]
  · have h00 := hok 0 0 (by omega)
    rw [h00]
    have htake : (img.rows.drop 0).take (h - 0 - 0) = img.rows := by
      rw [List.drop_zero, Nat.sub_zero, Nat.sub_zero, ← hrows, List.take_length]
    rw [htake]
    cases img
    simp_all
  · intro img2 top bottom h0
    unfold cropImage
    rw [if_pos h0]

/-- Witness for C5 at a concrete 2×3 image. -/
theorem cropImage_spec_witness :
    (SharpImage.mk (some 2) (some 3)
        (List.replicate 3 (List.replicate 2 (0, 0, 0)))).metaWidth = some 2 ∧
    (SharpImage.mk (some 2) (some 3)
        (List.replicate 3 (List.replicate 2 (0, 0, 0)))).rows.length = 3 ∧
    cropImage (SharpImage.mk (some 2) (some 3)
        (List.replicate 3 (List.replicate 2 (0, 0, 0)))) 0 0 =
      .ok (SharpImage.mk (some 2) (some 3)
        (List.replicate 3 (List.replicate 2 (0, 0, 0)))) :=
  ⟨rfl, by decide,
    (cropImage_spec _ 2 3 rfl rfl (by norm_num) (by norm_num)
      (by decide) (by decide)).2.2.1⟩

/-! ### Resampler (`HTMLGeneratorService.processAndResizeImage`) -/

/-- The resample step of `part_004`: read the true captured dimensions
from the capture metadata (falling back to 950×1500 when absent), form
`aspectRatio = capturedWidth / capturedHeight`, keep the requested width
and compute `targetHeight = Math.round(finalWidth / aspectRatio)`; the
subsequent `resize(targetWidth, targetHeight, fit: fill)` produces an
image of exactly these dimensions, which the function returns here. -/
def processAndResizeImage (metaWidth metaHeight : Option Nat) (finalWidth : Nat) :
    Nat × ℤ :=
  let capturedWidth := metaWidth.getD 950
  let capturedHeight := metaHeight.getD 1500
  let aspectRatio : ℚ := (capturedWidth : ℚ) / (capturedHeight : ℚ)
  let targetWidth := finalWidth
  let targetHeight := round ((finalWidth : ℚ) / aspectRatio)
  (targetWidth, targetHeight)

/-- C6: for measured capture dimensions `cw × ch` and any requested
width, the resampler produces width `finalWidth` and height
`round(finalWidth · ch / cw)` — the aspect-preserving value computed from
the measured dimensions, not a hardcoded target height. -/
theorem processAndResizeImage_dims (cw ch fw : Nat) :
    processAndResizeImage (some cw) (some ch) fw =
      (fw, round ((fw : ℚ) * (ch : ℚ) / (cw : ℚ))) := by
  unfold processAndResizeImage
  simp only [Option.getD_some]
  rw [div_div_eq_mul_div]

/-! ### Email compressor (`ImageProcessorService.compressImageForEmail`) -/

/-- Outcomes of the two fallible sharp steps inside
`compressImageForEmail`: reading metadata (which may fail, or succeed
with the width field possibly undefined) and the resize/re-encode chain. -/
structure CompressEnv where
  metadataWidth : Except Unit (Option Nat)
  resized : Except Unit (List Nat)

/-- `ImageProcessorService.compressImageForEmail`: any exception is
caught and the original buffer returned; when the width metadata is
truthy (defined and non-zero) and at most `maxWidth` the original buffer
is returned without compression; otherwise the resized re-encoded buffer
is returned (`Buffer.from` copies the bytes unchanged). -/
def compressImageForEmail (env : CompressEnv) (imageBuffer : List Nat)
    (maxWidth : Nat := 800) : List Nat :=
  match env.metadataWidth with
  | .error _ => imageBuffer
  | .ok wOpt =>
    if wOpt.getD 0 ≠ 0 ∧ wOpt.getD 0 ≤ maxWidth then imageBuffer
    else
      match env.resized with
      | .error _ => imageBuffer
      | .ok compressed => compressed

/-- C10: `compressImageForEmail` always returns a buffer (it never
throws): the input itself when the decoded width is at most `maxWidth`,
or when metadata reading or the resize step fails; the resized re-encoded
buffer otherwise. -/
theorem compressImageForEmail_total (env : CompressEnv) (imageBuffer : List Nat)
    (maxWidth : Nat) :
    (∀ w, env.metadataWidth = .ok (some w) → 0 < w → w ≤ maxWidth →
      compressImageForEmail env imageBuffer maxWidth = imageBuffer) ∧
    (∀ u, env.metadataWidth = .error u →
      compressImageForEmail env imageBuffer maxWidth = imageBuffer) ∧
    (∀ wOpt u, env.metadataWidth = .ok wOpt → env.resized = .error u →
      compressImageForEmail env imageBuffer maxWidth = imageBuffer) ∧
    (∀ w out, env.metadataWidth = .ok (some w) → maxWidth < w →
      env.resized = .ok out →
      compressImageForEmail env imageBuffer maxWidth = out) := by
  refine ⟨?_, ?_, ?_, ?_⟩
  · intro w hmw hw hwle
    have hcond : ((some w : Option Nat)).getD 0 ≠ 0 ∧
        ((some w : Option Nat)).getD 0 ≤ maxWidth := by
      simp only [Option.getD_some]
      omega
    simp only [compressImageForEmail, hmw, if_pos hcond]
  · intro u hmw
    simp [compressImageForEmail, hmw]
  · intro wOpt u hmw hres
    by_cases hcond : wOpt.getD 0 ≠ 0 ∧ wOpt.getD 0 ≤ maxWidth <;>
      simp [compressImageForEmail, hmw, hres, hcond]
  · intro w out hmw hwgt hres
    have hcond : ¬(((some w : Option Nat)).getD 0 ≠ 0 ∧
        ((some w : Option Nat)).getD 0 ≤ maxWidth) := by
      simp only [Option.getD_some]
      omega
    simp only [compressImageForEmail, hmw, if_neg hcond, hres]

/-- Witness for C10: a 500px-wide image is returned unchanged at the
default 800px limit. -/
theorem compressImageForEmail_total_witness :
    (CompressEnv.mk (.ok (some 500)) (.ok [1, 2])).metadataWidth = .ok (some 500) ∧
    0 < 500 ∧ 500 ≤ 800 ∧
    compressImageForEmail (CompressEnv.mk (.ok (some 500)) (.ok [1, 2])) [9] 800 = [9] :=
  ⟨rfl, by norm_num, by norm_num,
    (compressImageForEmail_total _ _ _).1 500 rfl (by norm_num) (by norm_num)⟩

/-! ### Single-flight guard (`Router.handleForecastImage`)

`handleForecastImage` runs on the Node event loop: code between `await`
points executes atomically.  The relevant atomic blocks per request are:
the `fs.access` check; the `if (!this.generatingForecast) assign` block
followed by capturing the promise to await; and, once the awaited
generation has settled, serving the constant `outputImagePath`.  The
generation itself settles in one block, clearing `generatingForecast` in
its `finally` and creating the file when it succeeded.  The interleaving
of two concurrent requests is modelled as a small-step transition
relation over this shared state. -/

/-- The phase of one `/forecast/image` request. -/
inductive ReqPhase where
  | start
  | missed
  | waiting (p : Nat)
  | served (path : String)
  | failed
deriving DecidableEq, Repr

/-- The two concurrent requests of the single-flight scenario. -/
inductive RequestId where
  | A
  | B
deriving DecidableEq, Repr

/-- The shared Router state plus the phase of each request.  `generating`
is the `generatingForecast` promise (identified by a fresh id),
`started` counts how many generations were ever started, and
`completedIds` records the settled generation promises. -/
structure RouterFlight where
  fileExists : Bool
  generating : Option Nat
  nextId : Nat
  started : Nat
  completedIds : List Nat
  reqA : ReqPhase
  reqB : ReqPhase
deriving DecidableEq, Repr

def getReq (s : RouterFlight) : RequestId → ReqPhase
  | .A => s.reqA
  | .B => s.reqB

def setReq (s : RouterFlight) : RequestId → ReqPhase → RouterFlight
  | .A, ph => { s with reqA := ph }
  | .B, ph => { s with reqB := ph }

/-- The constant output path `public/final/output.png` both requests
stream from. -/
def outputImagePath : String := "public/final/output.png"

/-- One atomic event-loop block of `handleForecastImage` or of the
generation promise. -/
inductive FlightStep : RouterFlight → RouterFlight → Prop where
  | checkMiss (s : RouterFlight) (i : RequestId) :
      getReq s i = .start → s.fileExists = false →
      FlightStep s (setReq s i .missed)
  | checkHit (s : RouterFlight) (i : RequestId) :
      getReq s i = .start → s.fileExists = true →
      FlightStep s (setReq s i (.served outputImagePath))
  | startGen (s : RouterFlight) (i : RequestId) :
      getReq s i = .missed → s.generating = none →
      FlightStep s { setReq s i (.waiting s.nextId) with
        generating := some s.nextId, nextId := s.nextId + 1,
        started := s.started + 1 }
  | joinGen (s : RouterFlight) (i : RequestId) (p : Nat) :
      getReq s i = .missed → s.generating = some p →
      FlightStep s (setReq s i (.waiting p))
  | genFinish (s : RouterFlight) (p : Nat) (ok : Bool) :
      s.generating = some p →
      FlightStep s
        ({ s with
            generating := none
            fileExists := s.fileExists || ok
            completedIds := p :: s.completedIds })
  | resume (s : RouterFlight) (i : RequestId) (p : Nat) :
      getReq s i = .waiting p → p ∈ s.completedIds →
      FlightStep s
        (setReq s i (if s.fileExists then .served outputImagePath else .failed))

/-- The initial state of the claimed scenario: no output file, no
generation in flight, both requests pending. -/
def initFlight : RouterFlight :=
  { fileExists := false, generating := none, nextId := 0, started := 0,
    completedIds := [], reqA := .start, reqB := .start }

/-- States reachable by interleaving the two requests with the
generation. -/
def FlightReachable (s : RouterFlight) : Prop :=
  Relation.ReflTransGen FlightStep initFlight s

theorem getReq_setReq_self (s : RouterFlight) (i : RequestId) (ph : ReqPhase) :
    getReq (setReq s i ph) i = ph := by
  cases i <;> simp [getReq, setReq]

theorem getReq_setReq (s : RouterFlight) (i j : RequestId) (ph : ReqPhase) :
    getReq (setReq s i ph) j = if i = j then ph else getReq s j := by
  cases i <;> cases j <;> simp [getReq, setReq]

theorem setReq_generating (s : RouterFlight) (i : RequestId) (ph : ReqPhase) :
    (setReq s i ph).generating = s.generating := by
  cases i <;> rfl

theorem setReq_started (s : RouterFlight) (i : RequestId) (ph : ReqPhase) :
    (setReq s i ph).started = s.started := by
  cases i <;> rfl

theorem setReq_completedIds (s : RouterFlight) (i : RequestId) (ph : ReqPhase) :
    (setReq s i ph).completedIds = s.completedIds := by
  cases i <;> rfl

/-- The inductive invariant: while no generation has settled, `started`
tracks whether the single promise is in flight and every waiting request
awaits exactly that promise; and a served request was always served the
constant output path. -/
def FlightInv (s : RouterFlight) : Prop :=
  (s.completedIds = [] →
    s.started ≤ 1 ∧
    (∀ p, s.generating = some p → s.started = 1) ∧
    (s.generating = none → s.started = 0) ∧
    (∀ i p, getReq s i = ReqPhase.waiting p → s.generating = some p)) ∧
  (∀ i path, getReq s i = ReqPhase.served path → path = outputImagePath)

theorem flightInv_init : FlightInv initFlight := by
  constructor
  · intro _
    refine ⟨by simp [initFlight], by simp [initFlight], fun _ => rfl, ?_⟩
    intro i p hi
    cases i <;> simp [getReq, initFlight] at hi
  · intro i path hi
    cases i <;> simp [getReq, initFlight] at hi

theorem flightInv_step {s t : RouterFlight} (hinv : FlightInv s)
    (hst : FlightStep s t) : FlightInv t := by
  obtain ⟨h1, h2⟩ := hinv
  cases hst with
  | checkMiss i hi hf =>
    constructor
    · intro hc
      rw [setReq_completedIds] at hc
      obtain ⟨ha, hb, hn, hw⟩ := h1 hc
      refine ⟨by rwa [setReq_started], ?_, ?_, ?_⟩
      · intro p hp
        rw [setReq_generating] at hp
        rw [setReq_started]
        exact hb p hp
      · intro hp
        rw [setReq_generating] at hp
        rw [setReq_started]
        exact hn hp
      · intro j p hj
        rw [getReq_setReq] at hj
        rw [setReq_generating]
        by_cases hij : i = j
        · simp [hij] at hj
        · rw [if_neg hij] at hj
          exact hw j p hj
    · intro j path hj
      rw [getReq_setReq] at hj
      by_cases hij : i = j
      · simp [hij] at hj
      · rw [if_neg hij] at hj
        exact h2 j path hj
  | checkHit i hi hf =>
    constructor
    · intro hc
      rw [setReq_completedIds] at hc
      obtain ⟨ha, hb, hn, hw⟩ := h1 hc
      refine ⟨by rwa [setReq_started], ?_, ?_, ?_⟩
      · intro p hp
        rw [setReq_generating] at hp
        rw [setReq_started]
        exact hb p hp
      · intro hp
        rw [setReq_generating] at hp
        rw [setReq_started]
        exact hn hp
      · intro j p hj
        rw [getReq_setReq] at hj
        rw [setReq_generating]
        by_cases hij : i = j
        · simp [hij] at hj
        · rw [if_neg hij] at hj
          exact hw j p hj
    · intro j path hj
      rw [getReq_setReq] at hj
      by_cases hij : i = j
      · simp [hij] at hj
        exact hj.symm
      · rw [if_neg hij] at hj
        exact h2 j path hj
  | startGen i hi hgen =>
    constructor
    · intro hc
      simp only [setReq_completedIds] at hc
      obtain ⟨ha, hb, hn, hw⟩ := h1 hc
      have hs0 : s.started = 0 := hn hgen
      refine ⟨by simp [setReq_started, hs0], ?_, ?_, ?_⟩
      · intro p _
        simp [setReq_started, hs0]
      · intro hp
        simp at hp
      · intro j p hj
        simp only [] at hj
        rw [show getReq { setReq s i (ReqPhase.waiting s.nextId) with
            generating := some s.nextId, nextId := s.nextId + 1,
            started := s.started + 1 } j = getReq (setReq s i (ReqPhase.waiting s.nextId)) j
          from by cases j <;> cases i <;> rfl] at hj
        rw [getReq_setReq] at hj
        by_cases hij : i = j
        · rw [if_pos hij] at hj
          cases hj
          rfl
        · rw [if_neg hij] at hj
          exact absurd (hw j p hj) (by simp [hgen])
    · intro j path hj
      rw [show getReq { setReq s i (ReqPhase.waiting s.nextId) with
          generating := some s.nextId, nextId := s.nextId + 1,
          started := s.started + 1 } j = getReq (setReq s i (ReqPhase.waiting s.nextId)) j
        from by cases j <;> cases i <;> rfl] at hj
      rw [getReq_setReq] at hj
      by_cases hij : i = j
      · simp [hij] at hj
      · rw [if_neg hij] at hj
        exact h2 j path hj
  | joinGen i p hi hgen =>
    constructor
    · intro hc
      rw [setReq_completedIds] at hc
      obtain ⟨ha, hb, hn, hw⟩ := h1 hc
      refine ⟨by rwa [setReq_started], ?_, ?_, ?_⟩
      · intro q hq
        rw [setReq_generating] at hq
        rw [setReq_started]
        exact hb q hq
      · intro hq
        rw [setReq_generating] at hq
        rw [setReq_started]
        exact hn hq
      · intro j q hj
        rw [getReq_setReq] at hj
        rw [setReq_generating]
        by_cases hij : i = j
        · rw [if_pos hij] at hj
          cases hj
          exact hgen
        · rw [if_neg hij] at hj
          exact hw j q hj
    · intro j path hj
      rw [getReq_setReq] at hj
      by_cases hij : i = j
      · simp [hij] at hj
      · rw [if_neg hij] at hj
        exact h2 j path hj
  | genFinish p ok hgen =>
    constructor
    · intro hc
      simp at hc
    · intro j path hj
      exact h2 j path (by cases j <;> exact hj)
  | resume i p hi hp =>
    constructor
    · intro hc
      rw [setReq_completedIds] at hc
      rw [hc] at hp
      simp at hp
    · intro j path hj
      rw [getReq_setReq] at hj
      by_cases hij : i = j
      · rw [if_pos hij] at hj
        by_cases hf : s.fileExists <;> simp [hf] at hj
        exact hj.symm
      · rw [if_neg hij] at hj
        exact h2 j path hj

theorem flightInv_reachable {s : RouterFlight} (hs : FlightReachable s) :
    FlightInv s := by
  induction hs with
  | refl => exact flightInv_init
  | tail _ hstep ih => exact flightInv_step ih hstep

/-- C8: in every interleaving of two concurrent `/forecast/image`
requests starting with no output file, while the in-flight generation has
not yet settled, if both requests reached the awaiting phase then exactly
one generation was started and both await that same promise; and any two
served requests are served the same constant output path. -/
theorem router_single_flight (s : RouterFlight) (hs : FlightReachable s) :
    (s.completedIds = [] → ∀ p q : Nat,
      s.reqA = .waiting p → s.reqB = .waiting q → p = q ∧ s.started = 1) ∧
    (∀ pa pb : String, s.reqA = .served pa → s.reqB = .served pb → pa = pb) := by
  have hinv := flightInv_reachable hs
  obtain ⟨h1, h2⟩ := hinv
  constructor
  · intro hc p q hp hq
    obtain ⟨ha, hb, hn, hw⟩ := h1 hc
    have hgp : s.generating = some p := hw .A p hp
    have hgq : s.generating = some q := hw .B q hq
    rw [hgp] at hgq
    cases hgq
    exact ⟨rfl, hb p hgp⟩
  · intro pa pb hpa hpb
    have ha := h2 .A pa hpa
    have hb := h2 .B pb hpb
    rw [ha, hb]

/-- The state reached by the interleaving miss-A, miss-B, start-A,
join-B. -/
def flightWitnessState : RouterFlight :=
  { fileExists := false, generating := some 0, nextId := 1, started := 1,
    completedIds := [], reqA := .waiting 0, reqB := .waiting 0 }

/-- Witness for C8: in the canonical interleaving miss-A, miss-B,
start-A, join-B both requests await generation `0` and exactly one
generation has started. -/
theorem router_single_flight_witness :
    FlightReachable flightWitnessState ∧
    flightWitnessState.completedIds = [] ∧
    flightWitnessState.reqA = .waiting 0 ∧
    flightWitnessState.reqB = .waiting 0 ∧
    (0 = 0 ∧ flightWitnessState.started = 1) := by
  have s1 : FlightStep initFlight (setReq initFlight .A .missed) :=
    FlightStep.checkMiss initFlight .A rfl rfl
  have s2 : FlightStep (setReq initFlight .A .missed)
      (setReq (setReq initFlight .A .missed) .B .missed) :=
    FlightStep.checkMiss _ .B rfl rfl
  have s3 := FlightStep.startGen (setReq (setReq initFlight .A .missed) .B .missed) .A
    rfl rfl
  have s4 := FlightStep.joinGen ({ setReq (setReq (setReq initFlight .A .missed) .B .missed) .A
      (ReqPhase.waiting 0) with generating := some 0, nextId := 1, started := 1 }) .B 0
    rfl rfl
  have hreach : FlightReachable flightWitnessState :=
    Relation.ReflTransGen.tail
      (Relation.ReflTransGen.tail
        (Relation.ReflTransGen.tail
          (Relation.ReflTransGen.tail Relation.ReflTransGen.refl s1) s2) s3) s4
  exact ⟨hreach, rfl, rfl, rfl,
    (router_single_flight flightWitnessState hreach).1 rfl 0 0 rfl rfl⟩

/-! ### Template mutator (`HTMLGeneratorService.updateHTML`)

The mutation is three regex passes over the template string: hide all
three overlay flags (`hideAllFlags`), un-hide the flag of the computed
level (`showFlag`), and substitute the date text (`updateDate`).  The
regexes are of the shape `literal₁ · [^ch]* · literal₂` with greedy
character-class runs; since shortening a greedy run always places a
forbidden character where `literal₂`'s first character is expected, a
position matches exactly when `literal₁` is followed by the maximal
`ch`-free run and then `literal₂`.  Strings are modelled as `List Char`
and each replace pass as a left-to-right scanner that, like the
JavaScript engine, advances one character on failure and continues after
the replaced text on success. -/

/-- `beginsWith pat l` is true when `pat` is an initial segment of `l`. -/
def beginsWith : List Char → List Char → Bool
  | [], _ => true
  | _ :: _, [] => false
  | a :: pat, b :: l => decide (a = b) && beginsWith pat l

theorem beginsWith_iff_append (pat : List Char) :
    ∀ l : List Char, beginsWith pat l = true ↔ ∃ t, l = pat ++ t := by
  induction pat with
  | nil =>
    intro l
    simp [beginsWith]
  | cons a pat ih =>
    intro l
    cases l with
    | nil =>
      simp [beginsWith]
    | cons b l =>
      simp only [beginsWith, Bool.and_eq_true, decide_eq_true_eq, ih l]
      constructor
      · rintro ⟨rfl, t, rfl⟩
        exact ⟨t, rfl⟩
      · rintro ⟨t, ht⟩
        cases ht
        exact ⟨rfl, t, rfl⟩

theorem beginsWith_append (pat t : List Char) :
    beginsWith pat (pat ++ t) = true :=
  (beginsWith_iff_append pat (pat ++ t)).mpr ⟨t, rfl⟩

theorem beginsWith_of_eq_append {pat l : List Char} (t : List Char)
    (h : l = pat ++ t) : beginsWith pat l = true :=
  (beginsWith_iff_append pat l).mpr ⟨t, h⟩

/-- A `beginsWith` test only reads the first `pat.length` characters. -/
theorem beginsWith_take (pat : List Char) :
    ∀ l : List Char, beginsWith pat l = beginsWith pat (l.take pat.length) := by
  induction pat with
  | nil =>
    intro l
    simp [beginsWith]
  | cons a pat ih =>
    intro l
    cases l with
    | nil => simp
    | cons b l => simp [beginsWith, ih l]

/-- With a long enough left part, `beginsWith` ignores the right part. -/
theorem beginsWith_append_long (pat y z : List Char) (h : pat.length ≤ y.length) :
    beginsWith pat (y ++ z) = beginsWith pat y := by
  rw [beginsWith_take pat (y ++ z), beginsWith_take pat y,
    List.take_append_of_le_length h]

/-- A long pattern against an append splits into two tests. -/
theorem beginsWith_split (pat y z : List Char) (h : y.length ≤ pat.length) :
    beginsWith pat (y ++ z) =
      (beginsWith (pat.take y.length) y && beginsWith (pat.drop y.length) z) := by
  induction y generalizing pat with
  | nil => simp [beginsWith]
  | cons b y ih =>
    cases pat with
    | nil => simp at h
    | cons a pat =>
      simp only [List.cons_append, beginsWith, List.length_cons, List.take_succ_cons,
        List.drop_succ_cons, List.append_eq]
      rw [ih pat (by simpa using h)]
      simp [Bool.and_assoc]

theorem beginsWith_head_ne {a b : Char} (pat l : List Char) (hab : a ≠ b) :
    beginsWith (a :: pat) (b :: l) = false := by
  simp [beginsWith, hab]

theorem beginsWith_length_le {pat l : List Char} (h : beginsWith pat l = true) :
    pat.length ≤ l.length := by
  obtain ⟨t, rfl⟩ := (beginsWith_iff_append pat l).mp h
  simp

/-- `takeWhile` over an append whose left part satisfies the predicate
and whose right part starts with a failing character. -/
theorem takeWhile_append_stop (p : Char → Bool) (xs : List Char) {c : Char}
    (ys : List Char) (hxs : ∀ x ∈ xs, p x = true) (hc : p c = false) :
    (xs ++ c :: ys).takeWhile p = xs := by
  induction xs with
  | nil => simp [List.takeWhile, hc]
  | cons x xs ih =>
    simp only [List.cons_append, List.takeWhile]
    rw [hxs x (by simp)]
    simp [ih fun y hy => hxs y (by simp [hy])]

/-- `takeWhile` only looks at the left part when it contains a failing
character. -/
theorem takeWhile_append_of_stop_mem (p : Char → Bool) :
    ∀ xs ys : List Char, (∃ x ∈ xs, p x = false) →
      (xs ++ ys).takeWhile p = xs.takeWhile p := by
  intro xs
  induction xs with
  | nil => simp
  | cons x xs ih =>
    intro ys hex
    by_cases hx : p x = true
    · simp only [List.cons_append, List.takeWhile, hx]
      obtain ⟨z, hz, hpz⟩ := hex
      rcases List.mem_cons.mp hz with rfl | hz
      · rw [hx] at hpz
        cases hpz
      · simp [ih ys ⟨z, hz, hpz⟩]
    · have hx' : p x = false := by
        cases hpx : p x
        · rfl
        · exact absurd hpx hx
      simp [List.takeWhile, hx']

/-! ### The literals of the three mutation regexes -/

/-- The three overlay flag ids appearing in `id="status-…"`. -/
inductive FlagId where
  | red
  | yellow
  | white
deriving DecidableEq, Repr

def flagIdStr : FlagId → List Char
  | .red => "red".data
  | .yellow => "yellow".data
  | .white => "white".data

/-- The literal before the character class in the hide regexes:
`<div class="flag-status-item status-overlay`. -/
def flagOpen : List Char := "<div class=\"flag-status-item status-overlay".data

/-- The hidden marker inserted by `hideAllFlags`. -/
def hiddenMark : List Char := " hidden".data

/-- The literal closing a flag div: `" id="status-‹id›">`. -/
def flagClose (i : FlagId) : List Char :=
  "\" id=\"status-".data ++ flagIdStr i ++ "\">".data

/-- The opening literal of the date span regex. -/
def dateHead : List Char := "<span class=\"date-text\">".data

/-- The closing literal of the date span regex. -/
def dateTail : List Char := "</span>".data

/-- The full literal `showFlag` removes ` hidden` from. -/
def hiddenFlag (i : FlagId) : List Char := flagOpen ++ hiddenMark ++ flagClose i

/-- The un-hidden flag div produced by `showFlag`. -/
def shownFlag (i : FlagId) : List Char := flagOpen ++ flagClose i

/-! ### The common matcher shape `literal₁ · [^stop]* · literal₂`

For both regex shapes of the mutation (`[^"]*` between div literals,
`[^<]*` between span literals) the character class is greedy and
`literal₂` begins with the forbidden character, so a position matches
exactly when `literal₁` is present, followed by the maximal `stop`-free
run, followed by `literal₂`; backtracking can never succeed because a
shortened run puts a non-`stop` character where `literal₂`'s `stop` head
is required. -/
def litMatch (lit1 : List Char) (stop : Char) (lit2 : List Char)
    (l : List Char) : Option (List Char) :=
  if beginsWith lit1 l then
    let r1 := l.drop lit1.length
    let run := r1.takeWhile fun c => decide (c ≠ stop)
    let r2 := r1.drop run.length
    if beginsWith lit2 r2 then some (r2.drop lit2.length) else none
  else none

theorem litMatch_some_length {lit1 : List Char} {stop : Char} {lit2 l r : List Char}
    (h : litMatch lit1 stop lit2 l = some r) :
    r.length + lit1.length ≤ l.length := by
  unfold litMatch at h
  dsimp only at h
  split at h
  case isTrue hbw =>
    split at h
    · cases h
      have hle := beginsWith_length_le hbw
      simp only [List.length_drop]
      omega
    · cases h
  case isFalse => cases h

/-- Evaluation of the matcher on an explicitly decomposed match. -/
theorem litMatch_eval (lit1 : List Char) (stop : Char) (lit2 run rest : List Char)
    (hrun : ∀ c ∈ run, c ≠ stop) (hlit2 : ∃ t, lit2 = stop :: t) :
    litMatch lit1 stop lit2 (lit1 ++ run ++ lit2 ++ rest) = some rest := by
  obtain ⟨t, rfl⟩ := hlit2
  unfold litMatch
  rw [if_pos (beginsWith_of_eq_append (run ++ (stop :: t) ++ rest) (by simp))]
  have hdrop : (lit1 ++ run ++ (stop :: t) ++ rest).drop lit1.length =
      run ++ (stop :: t) ++ rest := by
    have : lit1 ++ run ++ (stop :: t) ++ rest = lit1 ++ (run ++ (stop :: t) ++ rest) := by
      simp
    rw [this, List.drop_left]
  simp only [hdrop]
  have htw : (run ++ (stop :: t) ++ rest).takeWhile (fun c => decide (c ≠ stop)) = run := by
    have : run ++ (stop :: t) ++ rest = run ++ stop :: (t ++ rest) := by simp
    rw [this, takeWhile_append_stop _ run (t ++ rest)
      (fun x hx => by simpa using hrun x hx) (by simp)]
  rw [htw]
  have hdrop2 : (run ++ (stop :: t) ++ rest).drop run.length = (stop :: t) ++ rest := by
    have : run ++ (stop :: t) ++ rest = run ++ ((stop :: t) ++ rest) := by simp
    rw [this, List.drop_left]
  rw [hdrop2]
  rw [if_pos (beginsWith_append _ _)]
  rw [List.drop_left]

theorem take_length_takeWhile (p : Char → Bool) :
    ∀ l : List Char, l.take (l.takeWhile p).length = l.takeWhile p := by
  intro l
  induction l with
  | nil => simp
  | cons a l ih =>
    by_cases h : p a = true
    · simp [List.takeWhile, h, ih]
    · have h' : p a = false := by
        cases hpa : p a
        · rfl
        · exact absurd hpa h
      simp [List.takeWhile, h']

/-- Any successful match decomposes the input. -/
theorem litMatch_some_decomp {lit1 : List Char} {stop : Char} {lit2 l r : List Char}
    (h : litMatch lit1 stop lit2 l = some r) :
    ∃ run, (∀ c ∈ run, c ≠ stop) ∧ l = lit1 ++ run ++ lit2 ++ r := by
  unfold litMatch at h
  dsimp only at h
  split at h
  case isTrue hbw =>
    obtain ⟨t, rfl⟩ := (beginsWith_iff_append _ _).mp hbw
    rw [List.drop_left] at h
    split at h
    case isTrue hbw2 =>
      obtain ⟨t2, ht2⟩ := (beginsWith_iff_append _ _).mp hbw2
      have hr : t2 = r := by
        have := Option.some.inj h
        rw [← this, ht2, List.drop_left]
      subst hr
      refine ⟨t.takeWhile fun c => decide (c ≠ stop), ?_, ?_⟩
      · intro c hc
        simpa using List.mem_takeWhile_imp hc
      · have ht : t = (t.takeWhile fun c => decide (c ≠ stop)) ++ (lit2 ++ t2) := by
          conv_lhs =>
            rw [← List.take_append_drop
              (t.takeWhile fun c => decide (c ≠ stop)).length t]
          rw [ht2, take_length_takeWhile]
        conv_lhs => rw [ht]
        simp
    case isFalse => cases h
  case isFalse => cases h

/-! ### The replace scanners

`String.prototype.replace` finds matches left to right on the input:
on failure at a position it advances one character, on success (with the
global flag) it continues right after the matched text; without the
global flag it stops after the first replacement.  All three regexes
replace a match of `lit1 ++ run ++ lit2` by `lit1 ++ rep ++ lit2` for
their respective replacement text `rep`. -/
def scanAll (lit1 : List Char) (stop : Char) (lit2 rep : List Char)
    (hlit : lit1 ≠ []) : List Char → List Char
  | [] => []
  | c :: cs =>
    match h : litMatch lit1 stop lit2 (c :: cs) with
    | some rest => (lit1 ++ rep ++ lit2) ++ scanAll lit1 stop lit2 rep hlit rest
    | none => c :: scanAll lit1 stop lit2 rep hlit cs
termination_by l => l.length
decreasing_by
  · have h1 := litMatch_some_length h
    have h2 : lit1.length ≠ 0 := by
      simpa [List.length_eq_zero] using hlit
    simp only [List.length_cons] at h1 ⊢
    omega
  · simp

/-- The single-replacement scanner (no global flag). -/
def scanFirst (lit1 : List Char) (stop : Char) (lit2 rep : List Char) :
    List Char → List Char
  | [] => []
  | c :: cs =>
    match litMatch lit1 stop lit2 (c :: cs) with
    | some rest => (lit1 ++ rep ++ lit2) ++ rest
    | none => c :: scanFirst lit1 stop lit2 rep cs

/-- First-occurrence replacement of a plain literal (`showFlag`'s regex
is fully literal: its groups reassemble the text without ` hidden`). -/
def replaceFirstLit (pat rep : List Char) : List Char → List Char
  | [] => []
  | c :: cs =>
    if beginsWith pat (c :: cs) then rep ++ (c :: cs).drop pat.length
    else c :: replaceFirstLit pat rep cs

/-- One hide pass of `hideAllFlags` for one flag id. -/
def hideFlagPass (i : FlagId) (html : List Char) : List Char :=
  scanAll flagOpen '"' (flagClose i) hiddenMark (by decide) html

/-- `hideAllFlags`: the red, yellow and white hide passes in source
order. -/
def hideAllFlags (html : List Char) : List Char :=
  hideFlagPass .white (hideFlagPass .yellow (hideFlagPass .red html))

/-- `showFlag`'s `levelMap` from DTO levels to the HTML status ids. -/
def levelToId : AlertLevel → FlagId
  | .high => .red
  | .moderate => .yellow
  | .low => .white

/-- `showFlag`: remove ` hidden` from the first hidden div of the
level's flag. -/
def showFlag (level : AlertLevel) (html : List Char) : List Char :=
  replaceFirstLit (hiddenFlag (levelToId level)) (shownFlag (levelToId level)) html

/-- `updateDate`: replace the first date span's text. -/
def updateDate (dateString : List Char) (html : List Char) : List Char :=
  scanFirst dateHead '<' dateTail dateString html

/-- The full template mutation of `updateHTML` (steps 3–5): hide all
flags, show the level's flag, substitute the date. -/
def updateHTMLMutation (level : AlertLevel) (dateString : List Char)
    (html : List Char) : List Char :=
  updateDate dateString (showFlag level (hideAllFlags html))

/-! ### Generic helpers for the matcher analysis -/

theorem bw_append_false (x y z : List Char)
    (h : beginsWith (x.take y.length) y = false) :
    beginsWith x (y ++ z) = false := by
  rcases le_or_lt x.length y.length with hle | hlt
  · rw [beginsWith_append_long x y z hle]
    rwa [List.take_of_length_le hle] at h
  · rw [beginsWith_split x y z (le_of_lt hlt), h]
    simp

/-- Split a list at its first occurrence of a character. -/
theorem exists_first_stop (s : Char) :
    ∀ l : List Char, (∃ x ∈ l, x = s) →
      ∃ ρ t, l = ρ ++ s :: t ∧ ∀ c ∈ ρ, c ≠ s := by
  intro l
  induction l with
  | nil => rintro ⟨x, hx, -⟩; cases hx
  | cons a l ih =>
    intro hex
    by_cases ha : a = s
    · exact ⟨[], l, by rw [ha]; rfl, by simp⟩
    · obtain ⟨x, hx, rfl⟩ := hex
      rcases List.mem_cons.mp hx with rfl | hx
      · exact absurd rfl ha
      · obtain ⟨ρ, t, hlt, hρ⟩ := ih ⟨x, hx, rfl⟩
        exact ⟨a :: ρ, t, by rw [hlt]; rfl,
          by rintro c hc; rcases List.mem_cons.mp hc with rfl | hc
             · exact ha
             · exact hρ c hc⟩

/-- Characters of a proper tail of `x` avoid `c₀` when `x.drop 1` does. -/
theorem head_drop_ne {x : List Char} {c₀ : Char}
    (hall : ∀ c ∈ x.drop 1, c ≠ c₀) {k : Nat} (hk : 0 < k) {c : Char}
    {t : List Char} (hdrop : x.drop k = c :: t) : c ≠ c₀ := by
  have hc : c ∈ x.drop k := by rw [hdrop]; simp
  have : x.drop k = (x.drop 1).drop (k - 1) := by
    rw [List.drop_drop]
    congr 1
    omega
  rw [this] at hc
  exact hall c (List.mem_of_mem_drop hc)

/-! ### Structural decompositions of the literals -/

/-- `<div class=` — the quote-free part of `flagOpen` before its quote. -/
def flagOpenA : List Char := "<div class=".data

/-- `flag-status-item status-overlay` — after `flagOpen`'s quote. -/
def flagOpenB : List Char := "flag-status-item status-overlay".data

/-- `<span class=` — the quote-free part of `dateHead` before its quote. -/
def dateHeadA : List Char := "<span class=".data

/-- `date-text">` — after `dateHead`'s quote. -/
def dateHeadB : List Char := "date-text\">".data

theorem flagOpen_decomp : flagOpen = flagOpenA ++ '"' :: flagOpenB := by decide
theorem dateHead_decomp : dateHead = dateHeadA ++ '"' :: dateHeadB := by decide
theorem flagOpenA_noQuote : ∀ c ∈ flagOpenA, c ≠ '"' := by decide
theorem flagOpen_tail_noLt : ∀ c ∈ flagOpen.drop 1, c ≠ '<' := by decide
theorem dateHead_tail_noLt : ∀ c ∈ dateHead.drop 1, c ≠ '<' := by decide
theorem flagClose_head (i : FlagId) : ∃ t, flagClose i = '"' :: t := by
  cases i <;> exact ⟨_, rfl⟩
theorem dateTail_head : ∃ t, dateTail = '<' :: t := ⟨_, rfl⟩
theorem flagClose_noLt (i : FlagId) : ∀ c ∈ flagClose i, c ≠ '<' := by
  cases i <;> decide

/-! ### The chunk relation

Two strings are chunk-related when they are identical except in aligned
"slots": a flag slot is a flag div whose quote-free run between
`flagOpen` and the closing `flagClose` literal differs, a date slot is a
date span whose `<`-free text differs.  Chunk relations arise from the
replace passes themselves (a pass rewrites exactly such runs) and from
the `showFlag`/`updateDate` rewrites; the analysis below shows each
matcher behaves congruently on the two sides of a chunk relation. -/
inductive Chunk where
  | ch (c : Char)
  | fs (i : FlagId) (r₁ r₂ : List Char)
  | ds (r₁ r₂ : List Char)

def Chunk.leftText : Chunk → List Char
  | .ch c => [c]
  | .fs i r₁ _ => flagOpen ++ r₁ ++ flagClose i
  | .ds r₁ _ => dateHead ++ r₁ ++ dateTail

def Chunk.rightText : Chunk → List Char
  | .ch c => [c]
  | .fs i _ r₂ => flagOpen ++ r₂ ++ flagClose i
  | .ds _ r₂ => dateHead ++ r₂ ++ dateTail

def leftStr : List Chunk → List Char
  | [] => []
  | k :: γ => k.leftText ++ leftStr γ

def rightStr : List Chunk → List Char
  | [] => []
  | k :: γ => k.rightText ++ rightStr γ

def WFChunk : Chunk → Prop
  | .ch _ => True
  | .fs _ r₁ r₂ => (∀ c ∈ r₁, c ≠ '"') ∧ (∀ c ∈ r₂, c ≠ '"')
  | .ds r₁ r₂ => (∀ c ∈ r₁, c ≠ '<') ∧ (∀ c ∈ r₂, c ≠ '<')

def WFChunks (γ : List Chunk) : Prop := ∀ k ∈ γ, WFChunk k

/-- Shared characters lifted to chunks. -/
def chunkList (A : List Char) : List Chunk := A.map Chunk.ch

/-- A chunk list is slot-headed when it is empty or starts with a slot. -/
def SlotHeaded : List Chunk → Prop
  | [] => True
  | Chunk.ch _ :: _ => False
  | _ => True

theorem leftStr_append (γ₁ γ₂ : List Chunk) :
    leftStr (γ₁ ++ γ₂) = leftStr γ₁ ++ leftStr γ₂ := by
  induction γ₁ with
  | nil => rfl
  | cons k γ ih => simp [leftStr, ih]

theorem rightStr_append (γ₁ γ₂ : List Chunk) :
    rightStr (γ₁ ++ γ₂) = rightStr γ₁ ++ rightStr γ₂ := by
  induction γ₁ with
  | nil => rfl
  | cons k γ ih => simp [rightStr, ih]

theorem leftStr_chunkList (A : List Char) : leftStr (chunkList A) = A := by
  induction A with
  | nil => rfl
  | cons a A ih =>
    simp only [chunkList, List.map_cons, leftStr, Chunk.leftText]
    rw [show List.map Chunk.ch A = chunkList A from rfl, ih]
    rfl

theorem rightStr_chunkList (A : List Char) : rightStr (chunkList A) = A := by
  induction A with
  | nil => rfl
  | cons a A ih =>
    simp only [chunkList, List.map_cons, rightStr, Chunk.rightText]
    rw [show List.map Chunk.ch A = chunkList A from rfl, ih]
    rfl

/-- Every chunk list splits into a shared head and a slot-headed rest. -/
theorem chunks_decomp (γ : List Chunk) :
    ∃ A γs, γ = chunkList A ++ γs ∧ SlotHeaded γs := by
  induction γ with
  | nil => exact ⟨[], [], rfl, trivial⟩
  | cons k γ ih =>
    cases k with
    | ch c =>
      obtain ⟨A, γs, rfl, hs⟩ := ih
      exact ⟨c :: A, γs, rfl, hs⟩
    | fs i r₁ r₂ => exact ⟨[], Chunk.fs i r₁ r₂ :: γ, rfl, trivial⟩
    | ds r₁ r₂ => exact ⟨[], Chunk.ds r₁ r₂ :: γ, rfl, trivial⟩

/-! ### Matcher evaluation helpers -/

theorem takeWhile_all (p : Char → Bool) :
    ∀ l : List Char, (∀ c ∈ l, p c = true) → l.takeWhile p = l := by
  intro l
  induction l with
  | nil => simp
  | cons a l ih =>
    intro h
    simp only [List.takeWhile, h a (by simp)]
    simp [ih fun c hc => h c (by simp [hc])]

theorem litMatch_none_of_bw_false {lit1 : List Char} {stop : Char} {lit2 l : List Char}
    (h : beginsWith lit1 l = false) : litMatch lit1 stop lit2 l = none := by
  unfold litMatch
  rw [h]
  rfl

/-- Evaluation when the text after `lit1` reaches its first `stop` inside
the known part. -/
theorem litMatch_stopAt (lit1 : List Char) (stop : Char) (lit2 ρ rest : List Char)
    (hρ : ∀ c ∈ ρ, c ≠ stop) :
    litMatch lit1 stop lit2 (lit1 ++ (ρ ++ stop :: rest)) =
      if beginsWith lit2 (stop :: rest) then some ((stop :: rest).drop lit2.length)
      else none := by
  unfold litMatch
  rw [if_pos (beginsWith_append _ _)]
  dsimp only
  rw [List.drop_left]
  rw [takeWhile_append_stop _ ρ rest (fun x hx => by simpa using hρ x hx) (by simp)]
  rw [List.drop_left]

/-- The matcher fails when no `stop` character follows `lit1` at all. -/
theorem litMatch_noStop (lit1 : List Char) (stop : Char) (lit2 ρ : List Char)
    (hρ : ∀ c ∈ ρ, c ≠ stop) (hl2 : lit2 ≠ []) :
    litMatch lit1 stop lit2 (lit1 ++ ρ) = none := by
  unfold litMatch
  rw [if_pos (beginsWith_append _ _)]
  dsimp only
  rw [List.drop_left]
  rw [takeWhile_all _ ρ fun c hc => by simpa using hρ c hc]
  rw [List.drop_length]
  obtain ⟨c, t, rfl⟩ := List.exists_cons_of_ne_nil hl2
  rfl

/-! ### The shape of slot-headed chunk text -/

/-- The text of a slot-headed chunk list: empty, or a flag div head, or
a date span head. -/
def XShape (X : List Char) : Prop :=
  X = [] ∨
  (∃ j r rest, (∀ c ∈ r, c ≠ '"') ∧ X = flagOpen ++ r ++ flagClose j ++ rest) ∨
  (∃ r rest, (∀ c ∈ r, c ≠ '<') ∧ X = dateHead ++ r ++ dateTail ++ rest)

theorem leftStr_shape (γs : List Chunk) (hwf : WFChunks γs) (hs : SlotHeaded γs) :
    XShape (leftStr γs) := by
  cases γs with
  | nil => exact Or.inl rfl
  | cons k γ =>
    cases k with
    | ch c => exact absurd hs (by simp [SlotHeaded])
    | fs i r₁ r₂ =>
      refine Or.inr (Or.inl ⟨i, r₁, leftStr γ, ?_, ?_⟩)
      · have h : WFChunk (Chunk.fs i r₁ r₂) := hwf (Chunk.fs i r₁ r₂) (by simp)
        exact h.1
      · simp [leftStr, Chunk.leftText]
    | ds r₁ r₂ =>
      refine Or.inr (Or.inr ⟨r₁, leftStr γ, ?_, ?_⟩)
      · have h : WFChunk (Chunk.ds r₁ r₂) := hwf (Chunk.ds r₁ r₂) (by simp)
        exact h.1
      · simp [leftStr, Chunk.leftText]

theorem rightStr_shape (γs : List Chunk) (hwf : WFChunks γs) (hs : SlotHeaded γs) :
    XShape (rightStr γs) := by
  cases γs with
  | nil => exact Or.inl rfl
  | cons k γ =>
    cases k with
    | ch c => exact absurd hs (by simp [SlotHeaded])
    | fs i r₁ r₂ =>
      refine Or.inr (Or.inl ⟨i, r₂, rightStr γ, ?_, ?_⟩)
      · have h : WFChunk (Chunk.fs i r₁ r₂) := hwf (Chunk.fs i r₁ r₂) (by simp)
        exact h.2
      · simp [rightStr, Chunk.rightText]
    | ds r₁ r₂ =>
      refine Or.inr (Or.inr ⟨r₂, rightStr γ, ?_, ?_⟩)
      · have h : WFChunk (Chunk.ds r₁ r₂) := hwf (Chunk.ds r₁ r₂) (by simp)
        exact h.2
      · simp [rightStr, Chunk.rightText]

theorem bw_false_of_not {p l : List Char} (h : ¬beginsWith p l = true) :
    beginsWith p l = false := by
  cases hb : beginsWith p l
  · rfl
  · exact absurd hb h

theorem flagOpen_cons :
    flagOpen = '<' :: "div class=\"flag-status-item status-overlay".data := by decide
theorem dateHead_cons :
    dateHead = '<' :: "span class=\"date-text\">".data := by decide
theorem flagClose_ne_nil (i : FlagId) : flagClose i ≠ [] := by
  cases i <;> decide
theorem flagOpen_length : flagOpen.length = 43 := by decide

/-- A `beginsWith` test against slot-headed text fails when the pattern
does not start with `<`. -/
theorem bw_shape_false {c : Char} (t : List Char) (hc : c ≠ '<') {X : List Char}
    (hX : XShape X) : beginsWith (c :: t) X = false := by
  rcases hX with rfl | ⟨j, r, rest, hr, rfl⟩ | ⟨r, rest, hr, rfl⟩
  · rfl
  · rw [flagOpen_cons]
    exact beginsWith_head_ne _ _ hc
  · rw [dateHead_cons]
    exact beginsWith_head_ne _ _ hc

/-- The central dichotomy for the hide matcher at a shared position: the
verdict and the consumed text are decided by the shared part `A` alone,
uniformly in the slot-headed continuation. -/
theorem flagMatch_shared (i : FlagId) (A : List Char) (hA : A ≠ []) :
    (∃ run B, (∀ c ∈ run, c ≠ '"') ∧ A = flagOpen ++ run ++ flagClose i ++ B ∧
      ∀ X, XShape X →
        litMatch flagOpen '"' (flagClose i) (A ++ X) = some (B ++ X)) ∨
    (∀ X, XShape X → litMatch flagOpen '"' (flagClose i) (A ++ X) = none) := by
  by_cases hbwP : beginsWith flagOpen A = true
  · obtain ⟨A₂, rfl⟩ := (beginsWith_iff_append _ _).mp hbwP
    by_cases hq : ∃ x ∈ A₂, x = '"'
    · obtain ⟨ρ, A₃, rfl, hρ⟩ := exists_first_stop '"' A₂ hq
      rcases le_or_lt (flagClose i).length (1 + A₃.length) with hroom | hspill
      · by_cases hb₃ : beginsWith (flagClose i) ('"' :: A₃) = true
        · left
          obtain ⟨B, hB⟩ := (beginsWith_iff_append _ _).mp hb₃
          refine ⟨ρ, B, hρ, by rw [hB]; simp, ?_⟩
          intro X hX
          have heq : (flagOpen ++ (ρ ++ '"' :: A₃)) ++ X =
              flagOpen ++ (ρ ++ '"' :: (A₃ ++ X)) := by simp
          rw [heq, litMatch_stopAt _ _ _ ρ _ hρ]
          have h2 : ('"' : Char) :: (A₃ ++ X) = flagClose i ++ (B ++ X) := by
            rw [show flagClose i ++ (B ++ X) = (flagClose i ++ B) ++ X by simp, ← hB]
            rfl
          rw [h2, if_pos (beginsWith_append _ _), List.drop_left]
        · right
          intro X hX
          have heq : (flagOpen ++ (ρ ++ '"' :: A₃)) ++ X =
              flagOpen ++ (ρ ++ '"' :: (A₃ ++ X)) := by simp
          rw [heq, litMatch_stopAt _ _ _ ρ _ hρ]
          have h2 : ('"' : Char) :: (A₃ ++ X) = ('"' :: A₃) ++ X := rfl
          rw [h2, beginsWith_append_long _ _ _ (by simp; omega),
            bw_false_of_not hb₃]
          rfl
      · right
        intro X hX
        have heq : (flagOpen ++ (ρ ++ '"' :: A₃)) ++ X =
            flagOpen ++ (ρ ++ '"' :: (A₃ ++ X)) := by simp
        rw [heq, litMatch_stopAt _ _ _ ρ _ hρ]
        have h2 : ('"' : Char) :: (A₃ ++ X) = ('"' :: A₃) ++ X := rfl
        rw [h2, beginsWith_split _ _ _ (by simp; omega)]
        obtain ⟨c, t, hct⟩ : ∃ c t,
            (flagClose i).drop ('"' :: A₃).length = c :: t := by
          apply List.exists_cons_of_ne_nil
          intro hnil
          have := congrArg List.length hnil
          simp at this
          omega
        have hc : c ≠ '<' := by
          have hmemd : c ∈ (flagClose i).drop ('"' :: A₃).length := by
            rw [hct]; simp
          exact flagClose_noLt i c (List.mem_of_mem_drop hmemd)
        rw [hct, bw_shape_false t hc hX]
        simp
    · right
      push_neg at hq
      intro X hX
      rcases hX with rfl | ⟨j, r, rest, hr, rfl⟩ | ⟨r, rest, hr, rfl⟩
      · rw [List.append_nil]
        exact litMatch_noStop _ _ _ A₂ hq (flagClose_ne_nil i)
      · have heq : (flagOpen ++ A₂) ++ (flagOpen ++ r ++ flagClose j ++ rest) =
            flagOpen ++ ((A₂ ++ flagOpenA) ++
              '"' :: (flagOpenB ++ (r ++ flagClose j ++ rest))) := by
          conv_lhs => rw [show flagOpen ++ r ++ flagClose j ++ rest =
            (flagOpenA ++ '"' :: flagOpenB) ++ r ++ flagClose j ++ rest from by
              rw [← flagOpen_decomp]]
          simp
        rw [heq, litMatch_stopAt _ _ _ _ _ ?hfree]
        case hfree =>
          intro c hc
          rcases List.mem_append.mp hc with hc | hc
          · exact hq c hc
          · exact flagOpenA_noQuote c hc
        have h2 : ('"' : Char) :: (flagOpenB ++ (r ++ flagClose j ++ rest)) =
            ('"' :: flagOpenB) ++ (r ++ flagClose j ++ rest) := rfl
        rw [h2, bw_append_false _ _ _ (by cases i <;> decide)]
        rfl
      · have heq : (flagOpen ++ A₂) ++ (dateHead ++ r ++ dateTail ++ rest) =
            flagOpen ++ ((A₂ ++ dateHeadA) ++
              '"' :: (dateHeadB ++ (r ++ dateTail ++ rest))) := by
          conv_lhs => rw [show dateHead ++ r ++ dateTail ++ rest =
            (dateHeadA ++ '"' :: dateHeadB) ++ r ++ dateTail ++ rest from by
              rw [← dateHead_decomp]]
          simp
        rw [heq, litMatch_stopAt _ _ _ _ _ ?hfree2]
        case hfree2 =>
          intro c hc
          rcases List.mem_append.mp hc with hc | hc
          · exact hq c hc
          · have : ∀ x ∈ dateHeadA, x ≠ '"' := by decide
            exact this c hc
        have h2 : ('"' : Char) :: (dateHeadB ++ (r ++ dateTail ++ rest)) =
            ('"' :: dateHeadB) ++ (r ++ dateTail ++ rest) := rfl
        rw [h2, bw_append_false _ _ _ (by cases i <;> decide)]
        rfl
  · right
    intro X hX
    apply litMatch_none_of_bw_false
    rcases le_or_lt flagOpen.length A.length with hle | hlt
    · rw [beginsWith_append_long _ _ _ hle]
      exact bw_false_of_not hbwP
    · rw [beginsWith_split _ _ _ (le_of_lt hlt)]
      by_cases h1 : beginsWith (flagOpen.take A.length) A = true
      · rw [h1]
        obtain ⟨c, t, hct⟩ : ∃ c t, flagOpen.drop A.length = c :: t := by
          apply List.exists_cons_of_ne_nil
          intro hnil
          have := congrArg List.length hnil
          simp at this
          omega
        have hApos : 0 < A.length := List.length_pos.mpr hA
        have hc : c ≠ '<' := head_drop_ne flagOpen_tail_noLt hApos hct
        rw [hct, bw_shape_false t hc hX]
        simp
      · rw [bw_false_of_not h1]
        simp

theorem bw_true_mem {x y : List Char} (h : beginsWith x y = true) :
    ∀ c ∈ x, c ∈ y := by
  obtain ⟨t, rfl⟩ := (beginsWith_iff_append _ _).mp h
  intro c hc
  exact List.mem_append.mpr (Or.inl hc)

theorem flagOpen_drop_quote : flagOpen.drop 11 = '"' :: flagOpenB := by decide
theorem flagOpen_drop_head_ne_quote :
    ∀ k, k < 43 → k ≠ 11 → (flagOpen.drop k).head? ≠ some '"' := by decide
theorem quote_mem_flagOpen : '"' ∈ flagOpen := by decide
theorem dateTail_tail_noLt : ∀ c ∈ dateTail.drop 1, c ≠ '<' := by decide

/-- The hide matcher succeeds on a same-id flag slot, consuming it
exactly. -/
theorem flagMatch_fs_same (i : FlagId) (r rest : List Char)
    (hr : ∀ c ∈ r, c ≠ '"') :
    litMatch flagOpen '"' (flagClose i) (flagOpen ++ r ++ flagClose i ++ rest) =
      some rest :=
  litMatch_eval flagOpen '"' (flagClose i) r rest hr (flagClose_head i)

/-- The hide matcher rejects a flag slot of a different id. -/
theorem flagMatch_fs_cross (i j : FlagId) (hij : i ≠ j) (r rest : List Char)
    (hr : ∀ c ∈ r, c ≠ '"') :
    litMatch flagOpen '"' (flagClose i) (flagOpen ++ r ++ flagClose j ++ rest) =
      none := by
  obtain ⟨qj, hqj⟩ := flagClose_head j
  have heq : flagOpen ++ r ++ flagClose j ++ rest =
      flagOpen ++ (r ++ '"' :: (qj ++ rest)) := by
    rw [hqj]
    simp
  rw [heq, litMatch_stopAt _ _ _ _ _ hr]
  have h2 : ('"' : Char) :: (qj ++ rest) = flagClose j ++ rest := by
    rw [hqj]
    rfl
  rw [h2, bw_append_false _ _ _ ?side]
  · rfl
  case side =>
    cases i <;> cases j <;> first
      | exact absurd rfl hij
      | decide

/-- The hide matcher rejects a date slot. -/
theorem flagMatch_ds (i : FlagId) (r rest : List Char) :
    litMatch flagOpen '"' (flagClose i) (dateHead ++ r ++ dateTail ++ rest) =
      none := by
  apply litMatch_none_of_bw_false
  have heq : dateHead ++ r ++ dateTail ++ rest =
      dateHead ++ (r ++ dateTail ++ rest) := by simp
  rw [heq]
  exact bw_append_false _ _ _ (by decide)

/-- A scanner walks over a region with no matches unchanged. -/
theorem scanAll_skip (lit1 : List Char) (stop : Char) (lit2 rep : List Char)
    (hlit : lit1 ≠ []) (S b : List Char)
    (hS : ∀ k, k < S.length → litMatch lit1 stop lit2 (S.drop k ++ b) = none) :
    scanAll lit1 stop lit2 rep hlit (S ++ b) =
      S ++ scanAll lit1 stop lit2 rep hlit b := by
  induction S with
  | nil => simp
  | cons c S ih =>
    have h0 : litMatch lit1 stop lit2 (c :: (S ++ b)) = none := by
      have := hS 0 (by simp)
      simpa using this
    rw [List.cons_append, scanAll]
    split
    next rest heq =>
      rw [h0] at heq
      cases heq
    next heq =>
      rw [ih fun k hk => by simpa using hS (k + 1) (by simp; omega)]
      rfl

/-- No position strictly inside a flag slot matches the hide matcher. -/
theorem flagMatch_fs_interior (i j : FlagId) (r : List Char)
    (hr : ∀ c ∈ r, c ≠ '"') (b : List Char) :
    ∀ k, 0 < k → k < (flagOpen ++ r ++ flagClose j).length →
      litMatch flagOpen '"' (flagClose i)
        ((flagOpen ++ r ++ flagClose j).drop k ++ b) = none := by
  intro k hk hklt
  have hlen : (flagOpen ++ r ++ flagClose j).length =
      43 + r.length + (flagClose j).length := by
    simp [flagOpen_length]
    omega
  rcases lt_or_le k 43 with hk43 | hk43
  · -- inside `flagOpen`
    have hdrop : (flagOpen ++ r ++ flagClose j).drop k =
        flagOpen.drop k ++ (r ++ flagClose j) := by
      rw [show flagOpen ++ r ++ flagClose j = flagOpen ++ (r ++ flagClose j) by simp,
        List.drop_append_of_le_length (by rw [flagOpen_length]; omega)]
    obtain ⟨c, t, hct⟩ : ∃ c t, flagOpen.drop k = c :: t := by
      apply List.exists_cons_of_ne_nil
      intro hnil
      have := congrArg List.length hnil
      simp [flagOpen_length] at this
      omega
    have hc : c ≠ '<' := head_drop_ne flagOpen_tail_noLt hk hct
    apply litMatch_none_of_bw_false
    rw [hdrop, hct, flagOpen_cons]
    exact beginsWith_head_ne _ _ (Ne.symm hc)
  · rcases lt_or_le k (43 + r.length) with hkr | hkr
    · -- inside the run
      have hdrop : (flagOpen ++ r ++ flagClose j).drop k =
          r.drop (k - 43) ++ flagClose j := by
        rw [show flagOpen ++ r ++ flagClose j =
            flagOpen ++ (r ++ flagClose j) by simp]
        conv_lhs => rw [show k = flagOpen.length + (k - 43) by
          rw [flagOpen_length]; omega]
        rw [List.drop_append, List.drop_append_of_le_length (by omega)]
      set r' := r.drop (k - 43) with hrdefn
      have hrnon : r' ≠ [] := by
        intro hnil
        have := congrArg List.length hnil
        simp [hrdefn] at this
        omega
      have hrfree : ∀ c ∈ r', c ≠ '"' := fun c hc =>
        hr c (List.mem_of_mem_drop hc)
      apply litMatch_none_of_bw_false
      rw [hdrop]
      obtain ⟨qj, hqj⟩ := flagClose_head j
      rcases le_or_lt 43 r'.length with hbig | hsmall
      · rw [show r' ++ flagClose j ++ b = r' ++ (flagClose j ++ b) by simp,
          beginsWith_append_long _ _ _ (by rw [flagOpen_length]; omega)]
        cases hbw : beginsWith flagOpen r'
        · rfl
        · exact absurd (bw_true_mem hbw '"' quote_mem_flagOpen)
            (by intro hmem; exact hrfree '"' hmem rfl)
      · rw [show r' ++ flagClose j ++ b = r' ++ (flagClose j ++ b) by simp,
          beginsWith_split _ _ _ (by rw [flagOpen_length]; omega)]
        rcases eq_or_ne r'.length 11 with h11 | h11
        · rw [h11, flagOpen_drop_quote, hqj]
          have : beginsWith ('"' :: flagOpenB) (('"' :: qj) ++ b) =
              beginsWith flagOpenB (qj ++ b) := by
            simp [beginsWith]
          rw [show ('"' :: qj) ++ b = '"' :: (qj ++ b) from rfl]
          rw [show beginsWith ('"' :: flagOpenB) ('"' :: (qj ++ b)) =
              beginsWith flagOpenB (qj ++ b) by simp [beginsWith]]
          rw [bw_append_false flagOpenB qj b ?side2]
          · simp
          case side2 =>
            revert hqj
            cases j <;> (intro hqj; cases hqj; decide)
        · obtain ⟨c, t, hct⟩ : ∃ c t, flagOpen.drop r'.length = c :: t := by
            apply List.exists_cons_of_ne_nil
            intro hnil
            have := congrArg List.length hnil
            simp [flagOpen_length] at this
            omega
          have hcq : c ≠ '"' := by
            have := flagOpen_drop_head_ne_quote r'.length (by omega) h11
            rw [hct] at this
            simpa using this
          rw [hct, hqj]
          rw [show ('"' :: qj) ++ b = '"' :: (qj ++ b) from rfl]
          rw [beginsWith_head_ne _ _ hcq]
          simp
    · -- inside `flagClose j`
      have hdrop : (flagOpen ++ r ++ flagClose j).drop k =
          (flagClose j).drop (k - 43 - r.length) := by
        rw [show flagOpen ++ r ++ flagClose j =
            (flagOpen ++ r) ++ flagClose j by simp]
        conv_lhs => rw [show k = (flagOpen ++ r).length + (k - 43 - r.length) by
          simp [flagOpen_length]; omega]
        rw [List.drop_append]
      obtain ⟨c, t, hct⟩ : ∃ c t, (flagClose j).drop (k - 43 - r.length) = c :: t := by
        apply List.exists_cons_of_ne_nil
        intro hnil
        have := congrArg List.length hnil
        simp at this
        omega
      have hc : c ≠ '<' := by
        have hmem : c ∈ (flagClose j).drop (k - 43 - r.length) := by
          rw [hct]; simp
        exact flagClose_noLt j c (List.mem_of_mem_drop hmem)
      apply litMatch_none_of_bw_false
      rw [hdrop, hct, flagOpen_cons]
      exact beginsWith_head_ne _ _ (Ne.symm hc)

/-- No position strictly inside a date slot matches the hide matcher. -/
theorem flagMatch_ds_interior (i : FlagId) (r : List Char)
    (hr : ∀ c ∈ r, c ≠ '<') (b : List Char) :
    ∀ k, 0 < k → k < (dateHead ++ r ++ dateTail).length →
      litMatch flagOpen '"' (flagClose i)
        ((dateHead ++ r ++ dateTail).drop k ++ b) = none := by
  intro k hk hklt
  have hDH : dateHead.length = 24 := by decide
  have hDT : dateTail.length = 7 := by decide
  rcases lt_or_le k 24 with hk24 | hk24
  · have hdrop : (dateHead ++ r ++ dateTail).drop k =
        dateHead.drop k ++ (r ++ dateTail) := by
      rw [show dateHead ++ r ++ dateTail = dateHead ++ (r ++ dateTail) by simp,
        List.drop_append_of_le_length (by omega)]
    obtain ⟨c, t, hct⟩ : ∃ c t, dateHead.drop k = c :: t := by
      apply List.exists_cons_of_ne_nil
      intro hnil
      have := congrArg List.length hnil
      simp [hDH] at this
      omega
    have hc : c ≠ '<' := head_drop_ne dateHead_tail_noLt hk hct
    apply litMatch_none_of_bw_false
    rw [hdrop, hct, flagOpen_cons]
    exact beginsWith_head_ne _ _ (Ne.symm hc)
  · rcases lt_or_le k (24 + r.length) with hkr | hkr
    · have hdrop : (dateHead ++ r ++ dateTail).drop k =
          r.drop (k - 24) ++ dateTail := by
        rw [show dateHead ++ r ++ dateTail = dateHead ++ (r ++ dateTail) by simp]
        conv_lhs => rw [show k = dateHead.length + (k - 24) by omega]
        rw [List.drop_append, List.drop_append_of_le_length (by omega)]
      obtain ⟨c, t, hct⟩ : ∃ c t, r.drop (k - 24) = c :: t := by
        apply List.exists_cons_of_ne_nil
        intro hnil
        have := congrArg List.length hnil
        simp at this
        omega
      have hc : c ≠ '<' := by
        have hmem : c ∈ r.drop (k - 24) := by rw [hct]; simp
        exact hr c (List.mem_of_mem_drop hmem)
      apply litMatch_none_of_bw_false
      rw [hdrop, hct, flagOpen_cons]
      exact beginsWith_head_ne _ _ (Ne.symm hc)
    · have hdrop : (dateHead ++ r ++ dateTail).drop k =
          dateTail.drop (k - 24 - r.length) := by
        rw [show dateHead ++ r ++ dateTail = (dateHead ++ r) ++ dateTail by simp]
        conv_lhs => rw [show k = (dateHead ++ r).length + (k - 24 - r.length) by
          simp [hDH]; omega]
        rw [List.drop_append]
      apply litMatch_none_of_bw_false
      rcases Nat.eq_zero_or_pos (k - 24 - r.length) with hm | hm
      · rw [hdrop, hm, List.drop_zero]
        exact bw_append_false _ _ _ (by decide)
      · obtain ⟨c, t, hct⟩ : ∃ c t, dateTail.drop (k - 24 - r.length) = c :: t := by
          apply List.exists_cons_of_ne_nil
          intro hnil
          have := congrArg List.length hnil
          simp [hDT] at this
          simp [flagOpen_length, hDH, hDT] at hklt
          omega
        have hc : c ≠ '<' := head_drop_ne dateTail_tail_noLt hm hct
        rw [hdrop, hct, flagOpen_cons]
        exact beginsWith_head_ne _ _ (Ne.symm hc)

theorem dateTail_ne_nil : dateTail ≠ [] := by decide
theorem dateHead_length : dateHead.length = 24 := by decide
theorem dateTail_length : dateTail.length = 7 := by decide

/-- The central dichotomy for the date matcher at a shared position: the
verdict and the consumed text are decided by the shared part `A` alone,
uniformly in the slot-headed continuation. -/
theorem dateMatch_shared (A : List Char) (hA : A ≠ []) :
    (∃ run B, (∀ c ∈ run, c ≠ '<') ∧ A = dateHead ++ run ++ dateTail ++ B ∧
      ∀ X, XShape X →
        litMatch dateHead '<' dateTail (A ++ X) = some (B ++ X)) ∨
    (∀ X, XShape X → litMatch dateHead '<' dateTail (A ++ X) = none) := by
  by_cases hbwP : beginsWith dateHead A = true
  · obtain ⟨A₂, rfl⟩ := (beginsWith_iff_append _ _).mp hbwP
    by_cases hq : ∃ x ∈ A₂, x = '<'
    · obtain ⟨ρ, A₃, rfl, hρ⟩ := exists_first_stop '<' A₂ hq
      rcases le_or_lt dateTail.length (1 + A₃.length) with hroom | hspill
      · by_cases hb₃ : beginsWith dateTail ('<' :: A₃) = true
        · left
          obtain ⟨B, hB⟩ := (beginsWith_iff_append _ _).mp hb₃
          refine ⟨ρ, B, hρ, by rw [hB]; simp, ?_⟩
          intro X hX
          have heq : (dateHead ++ (ρ ++ '<' :: A₃)) ++ X =
              dateHead ++ (ρ ++ '<' :: (A₃ ++ X)) := by simp
          rw [heq, litMatch_stopAt _ _ _ ρ _ hρ]
          have h2 : ('<' : Char) :: (A₃ ++ X) = dateTail ++ (B ++ X) := by
            rw [show dateTail ++ (B ++ X) = (dateTail ++ B) ++ X by simp, ← hB]
            rfl
          rw [h2, if_pos (beginsWith_append _ _), List.drop_left]
        · right
          intro X hX
          have heq : (dateHead ++ (ρ ++ '<' :: A₃)) ++ X =
              dateHead ++ (ρ ++ '<' :: (A₃ ++ X)) := by simp
          rw [heq, litMatch_stopAt _ _ _ ρ _ hρ]
          have h2 : ('<' : Char) :: (A₃ ++ X) = ('<' :: A₃) ++ X := rfl
          rw [h2, beginsWith_append_long _ _ _ (by simp; omega),
            bw_false_of_not hb₃]
          rfl
      · right
        intro X hX
        have heq : (dateHead ++ (ρ ++ '<' :: A₃)) ++ X =
            dateHead ++ (ρ ++ '<' :: (A₃ ++ X)) := by simp
        rw [heq, litMatch_stopAt _ _ _ ρ _ hρ]
        have h2 : ('<' : Char) :: (A₃ ++ X) = ('<' :: A₃) ++ X := rfl
        rw [h2, beginsWith_split _ _ _ (by simp; omega)]
        obtain ⟨c, t, hct⟩ : ∃ c t,
            dateTail.drop ('<' :: A₃).length = c :: t := by
          apply List.exists_cons_of_ne_nil
          intro hnil
          have := congrArg List.length hnil
          simp at this
          omega
        have hc : c ≠ '<' :=
          head_drop_ne dateTail_tail_noLt (by simp) hct
        rw [hct, bw_shape_false t hc hX]
        simp
    · right
      push_neg at hq
      intro X hX
      rcases hX with rfl | ⟨j, r, rest, hr, rfl⟩ | ⟨r, rest, hr, rfl⟩
      · rw [List.append_nil]
        exact litMatch_noStop _ _ _ A₂ hq dateTail_ne_nil
      · have heq : (dateHead ++ A₂) ++ (flagOpen ++ r ++ flagClose j ++ rest) =
            dateHead ++ (A₂ ++ '<' ::
              ("div class=\"flag-status-item status-overlay".data ++
                (r ++ flagClose j ++ rest))) := by
          conv_lhs => rw [flagOpen_cons]
          simp
        rw [heq, litMatch_stopAt _ _ _ _ _ (fun c hc => hq c hc)]
        have h2 : ('<' : Char) ::
            ("div class=\"flag-status-item status-overlay".data ++
              (r ++ flagClose j ++ rest)) =
            flagOpen ++ (r ++ flagClose j ++ rest) := by
          rw [flagOpen_cons]
          rfl
        rw [h2, bw_append_false _ _ _ (by decide)]
        rfl
      · have heq : (dateHead ++ A₂) ++ (dateHead ++ r ++ dateTail ++ rest) =
            dateHead ++ (A₂ ++ '<' ::
              ("span class=\"date-text\">".data ++
                (r ++ dateTail ++ rest))) := by
          conv_rhs => rw [show ('<' ::
              ("span class=\"date-text\">".data ++ (r ++ dateTail ++ rest))) =
            dateHead ++ (r ++ dateTail ++ rest) by rw [dateHead_cons]; rfl]
          simp
        rw [heq, litMatch_stopAt _ _ _ _ _ (fun c hc => hq c hc)]
        have h2 : ('<' : Char) ::
            ("span class=\"date-text\">".data ++ (r ++ dateTail ++ rest)) =
            dateHead ++ (r ++ dateTail ++ rest) := by
          rw [dateHead_cons]
          rfl
        rw [h2, bw_append_false _ _ _ (by decide)]
        rfl
  · right
    intro X hX
    apply litMatch_none_of_bw_false
    rcases le_or_lt dateHead.length A.length with hle | hlt
    · rw [beginsWith_append_long _ _ _ hle]
      exact bw_false_of_not hbwP
    · rw [beginsWith_split _ _ _ (le_of_lt hlt)]
      by_cases h1 : beginsWith (dateHead.take A.length) A = true
      · rw [h1]
        obtain ⟨c, t, hct⟩ : ∃ c t, dateHead.drop A.length = c :: t := by
          apply List.exists_cons_of_ne_nil
          intro hnil
          have := congrArg List.length hnil
          simp at this
          omega
        have hApos : 0 < A.length := List.length_pos.mpr hA
        have hc : c ≠ '<' := head_drop_ne dateHead_tail_noLt hApos hct
        rw [hct, bw_shape_false t hc hX]
        simp
      · rw [bw_false_of_not h1]
        simp

/-! ### Generic matcher layer

The analysis of the three hide passes and the date pass is uniform: each
is driven by one `litMatch` matcher whose verdicts at shared positions
are independent of the slot-headed continuation.  `MK` names the four
matchers and the lemmas below package the two dichotomies. -/

/-- Matcher keys: the three hide matchers and the date matcher. -/
inductive MK where
  | mfk (i : FlagId)
  | mdk
deriving DecidableEq

/-- The matcher named by a key. -/
def mrun : MK → List Char → Option (List Char)
  | .mfk i, l => litMatch flagOpen '"' (flagClose i) l
  | .mdk, l => litMatch dateHead '<' dateTail l

/-- The text a full match of each matcher consumes. -/
def mtext : MK → List Char → Prop
  | .mfk i, E => ∃ run, (∀ c ∈ run, c ≠ '"') ∧ E = flagOpen ++ run ++ flagClose i
  | .mdk, E => ∃ run, (∀ c ∈ run, c ≠ '<') ∧ E = dateHead ++ run ++ dateTail

/-- A failure verdict uniform in every slot-headed continuation. -/
def MatchNone (m : MK) (A : List Char) : Prop :=
  ∀ X, XShape X → mrun m (A ++ X) = none

/-- A success verdict uniform in every slot-headed continuation. -/
def MatchSome (m : MK) (A B : List Char) : Prop :=
  ∀ X, XShape X → mrun m (A ++ X) = some (B ++ X)

theorem XShape_nil : XShape [] := Or.inl rfl

/-- Match text followed by anything is slot-headed. -/
theorem mtext_shape (m : MK) {E : List Char} (hE : mtext m E) (z : List Char) :
    XShape (E ++ z) := by
  cases m with
  | mfk i =>
    obtain ⟨run, hq, rfl⟩ := hE
    exact Or.inr (Or.inl ⟨i, run, z, hq, by simp⟩)
  | mdk =>
    obtain ⟨run, hq, rfl⟩ := hE
    exact Or.inr (Or.inr ⟨run, z, hq, by simp⟩)

theorem mtext_length_pos (m : MK) {E : List Char} (hE : mtext m E) :
    0 < E.length := by
  cases m with
  | mfk i =>
    obtain ⟨run, _, rfl⟩ := hE
    simp [flagOpen_length]
  | mdk =>
    obtain ⟨run, _, rfl⟩ := hE
    simp [dateHead_length]

/-- The dichotomy, per matcher. -/
theorem mrun_shared (m : MK) (A : List Char) (hA : A ≠ []) :
    (∃ E B, A = E ++ B ∧ mtext m E ∧ MatchSome m A B) ∨ MatchNone m A := by
  cases m with
  | mfk i =>
    rcases flagMatch_shared i A hA with ⟨run, B, hq, hAeq, hsome⟩ | hnone
    · exact Or.inl ⟨flagOpen ++ run ++ flagClose i, B, by rw [hAeq],
        ⟨run, hq, rfl⟩, hsome⟩
    · exact Or.inr hnone
  | mdk =>
    rcases dateMatch_shared A hA with ⟨run, B, hq, hAeq, hsome⟩ | hnone
    · exact Or.inl ⟨dateHead ++ run ++ dateTail, B, by rw [hAeq],
        ⟨run, hq, rfl⟩, hsome⟩
    · exact Or.inr hnone

/-- One known uniform-context failure pins the verdict everywhere. -/
theorem matchNone_of_none (m : MK) {A : List Char} (hA : A ≠ []) {X₀ : List Char}
    (hX₀ : XShape X₀) (h : mrun m (A ++ X₀) = none) : MatchNone m A := by
  rcases mrun_shared m A hA with ⟨E, B, hEB, hE, hsome⟩ | hnone
  · rw [hsome X₀ hX₀] at h
    cases h
  · exact hnone

/-- `A` has no match of `m` at any of its positions, uniformly in the
slot-headed continuation. -/
def InertStr (m : MK) (A : List Char) : Prop :=
  ∀ k, k < A.length → MatchNone m (A.drop k)

/-- Splitting a string at the first match of a matcher. -/
theorem firstMatchSplit (m : MK) (A : List Char) :
    InertStr m A ∨
    ∃ U E B, A = U ++ (E ++ B) ∧ mtext m E ∧ InertStr m U ∧
      MatchSome m (E ++ B) B := by
  induction A with
  | nil =>
    left
    intro k hk
    simp at hk
  | cons a A ih =>
    rcases mrun_shared m (a :: A) (by simp) with ⟨E, B, hEB, hE, hsome⟩ | hnone
    · right
      refine ⟨[], E, B, by simpa using hEB, hE, ?_, by rw [← hEB]; exact hsome⟩
      intro k hk
      simp at hk
    · rcases ih with hin | ⟨U, E, B, hUEB, hE, hU, hsome⟩
      · left
        intro k hk
        cases k with
        | zero => exact hnone
        | succ k => exact hin k (by simpa using hk)
      · right
        refine ⟨a :: U, E, B, by rw [hUEB]; rfl, hE, ?_, hsome⟩
        intro k hk
        cases k with
        | zero =>
          apply matchNone_of_none m (by simp) (mtext_shape m hE B)
          have h0 := hnone [] XShape_nil
          rw [List.append_nil] at h0
          rw [show (a :: U).drop 0 ++ (E ++ B) = a :: A by
            rw [List.drop_zero, List.cons_append, ← hUEB]]
          exact h0
        | succ k => exact hU k (by simpa using hk)

/-- Inertness restricts to suffixes. -/
theorem inertStr_suffix (m : MK) {P B : List Char}
    (h : InertStr m (P ++ B)) : InertStr m B := by
  intro k hk
  have := h (P.length + k) (by simp; omega)
  rwa [List.drop_append] at this

/-- Inertness restricts to a chunk before a match text. -/
theorem inertStr_split_left (m mm : MK) {U E B : List Char}
    (hE : mtext mm E) (h : InertStr m (U ++ (E ++ B))) : InertStr m U := by
  intro k hk
  apply matchNone_of_none m ?hne (mtext_shape mm hE B)
  case hne =>
    intro hnil
    have := congrArg List.length hnil
    simp at this
    omega
  have := h k (by simp; omega) [] XShape_nil
  rw [List.append_nil, List.drop_append_of_le_length (le_of_lt hk)] at this
  exact this

/-- Inertness for a set of matchers. -/
def InertFor (ks : List MK) (A : List Char) : Prop :=
  ∀ m ∈ ks, InertStr m A

/-! ### Scanner step lemmas -/

/-- A global scan rewrites a match at the head and continues after it. -/
theorem scanAll_step (lit1 : List Char) (stop : Char) (lit2 rep : List Char)
    (hlit : lit1 ≠ []) {l r : List Char}
    (h : litMatch lit1 stop lit2 l = some r) :
    scanAll lit1 stop lit2 rep hlit l =
      (lit1 ++ rep ++ lit2) ++ scanAll lit1 stop lit2 rep hlit r := by
  cases l with
  | nil =>
    exfalso
    have h1 := litMatch_some_length h
    have h2 : lit1.length ≠ 0 := by simpa [List.length_eq_zero] using hlit
    simp only [List.length_nil] at h1
    omega
  | cons c cs =>
    rw [scanAll]
    split
    next rest heq =>
      rw [h] at heq
      cases heq
      rfl
    next heq =>
      rw [h] at heq
      cases heq

/-- A first-match scan rewrites a match at the head and stops. -/
theorem scanFirst_step (lit1 : List Char) (stop : Char) (lit2 rep : List Char)
    (hlit : lit1 ≠ []) {l r : List Char}
    (h : litMatch lit1 stop lit2 l = some r) :
    scanFirst lit1 stop lit2 rep l = (lit1 ++ rep ++ lit2) ++ r := by
  cases l with
  | nil =>
    exfalso
    have h1 := litMatch_some_length h
    have h2 : lit1.length ≠ 0 := by simpa [List.length_eq_zero] using hlit
    simp only [List.length_nil] at h1
    omega
  | cons c cs =>
    rw [scanFirst, h]

/-- A first-match scan walks over a matchless region unchanged. -/
theorem scanFirst_skip (lit1 : List Char) (stop : Char) (lit2 rep : List Char)
    (S b : List Char)
    (hS : ∀ k, k < S.length → litMatch lit1 stop lit2 (S.drop k ++ b) = none) :
    scanFirst lit1 stop lit2 rep (S ++ b) =
      S ++ scanFirst lit1 stop lit2 rep b := by
  induction S with
  | nil => simp
  | cons c S ih =>
    have h0 : litMatch lit1 stop lit2 (c :: (S ++ b)) = none := by
      simpa using hS 0 (by simp)
    rw [List.cons_append, scanFirst, h0]
    show c :: scanFirst lit1 stop lit2 rep (S ++ b) = _
    rw [ih fun k hk => by simpa using hS (k + 1) (by simp; omega)]
    rfl

/-- A literal replace rewrites at a matching head position. -/
theorem replaceFirstLit_step (pat rep : List Char) {l : List Char}
    (hl : l ≠ []) (h : beginsWith pat l = true) :
    replaceFirstLit pat rep l = rep ++ l.drop pat.length := by
  cases l with
  | nil => exact absurd rfl hl
  | cons c cs => rw [replaceFirstLit, if_pos h]

/-- A literal replace walks over a matchless region unchanged. -/
theorem replaceFirstLit_skip (pat rep : List Char) (S b : List Char)
    (hS : ∀ k, k < S.length → beginsWith pat (S.drop k ++ b) = false) :
    replaceFirstLit pat rep (S ++ b) = S ++ replaceFirstLit pat rep b := by
  induction S with
  | nil => simp
  | cons c S ih =>
    have h0 : beginsWith pat (c :: (S ++ b)) = false := by
      simpa using hS 0 (by simp)
    rw [List.cons_append, replaceFirstLit, if_neg (by simp [h0])]
    rw [ih fun k hk => by simpa using hS (k + 1) (by simp; omega)]
    rfl

/-- A position that starts with the literal `hiddenFlag i` is a match of
the `i` hide matcher consuming exactly that literal. -/
theorem bw_hiddenFlag_match (i : FlagId) (t : List Char) :
    litMatch flagOpen '"' (flagClose i) (hiddenFlag i ++ t) = some t := by
  rw [show hiddenFlag i ++ t = flagOpen ++ hiddenMark ++ flagClose i ++ t by
    simp [hiddenFlag]]
  exact flagMatch_fs_same i hiddenMark t (by decide)

/-- A matcher whose opening literal starts with `<` fails at every
strictly interior position of a region whose tail is `<`-free. -/
theorem litMatch_interior_noLt (lit1 : List Char) (stop : Char)
    (lit2 t1 : List Char) (h1 : lit1 = '<' :: t1) (W : List Char)
    (hW : ∀ c ∈ W.drop 1, c ≠ '<') (b : List Char) :
    ∀ k, 0 < k → k < W.length →
      litMatch lit1 stop lit2 (W.drop k ++ b) = none := by
  intro k hk hklt
  obtain ⟨c, t, hct⟩ : ∃ c t, W.drop k = c :: t := by
    apply List.exists_cons_of_ne_nil
    intro hnil
    have := congrArg List.length hnil
    simp at this
    omega
  have hc : c ≠ '<' := head_drop_ne hW hk hct
  apply litMatch_none_of_bw_false
  rw [hct, h1]
  exact beginsWith_head_ne _ _ (Ne.symm hc)

/-- The date matcher fails at the head of a flag div. -/
theorem dateMatch_fs (i : FlagId) (r rest : List Char) :
    litMatch dateHead '<' dateTail (flagOpen ++ r ++ flagClose i ++ rest) =
      none := by
  apply litMatch_none_of_bw_false
  rw [show flagOpen ++ r ++ flagClose i ++ rest =
    flagOpen ++ (r ++ flagClose i ++ rest) by simp]
  exact bw_append_false _ _ _ (by decide)

/-! ### Piece decompositions of the mutated HTML

The scans write the HTML into an alternation of inert text regions,
flag divs in canonical (hidden or shown) form, and rewritten date
spans.  The pass lemmas below compute each mutation step on such a
decomposition. -/

inductive Piece where
  | txt (A : List Char)
  | fslot (i : FlagId) (hid : Bool)
  | dslot (r : List Char)
deriving DecidableEq

/-- The HTML text of one piece. -/
def pieceStr : Piece → List Char
  | .txt A => A
  | .fslot i hid => flagOpen ++ (if hid then hiddenMark else []) ++ flagClose i
  | .dslot r => dateHead ++ r ++ dateTail

/-- The HTML text of a piece list. -/
def flat : List Piece → List Char
  | [] => []
  | p :: ps => pieceStr p ++ flat ps

/-- Well-formedness of one piece: text regions are uniformly matchless
for the matchers in `ks`, date runs are `<`-free. -/
def PieceOK (ks : List MK) : Piece → Prop
  | .txt A => InertFor ks A
  | .fslot _ _ => True
  | .dslot r => ∀ c ∈ r, c ≠ '<'

def PiecesOK (ks : List MK) (ps : List Piece) : Prop := ∀ p ∈ ps, PieceOK ks p

/-- The list does not start with a text piece. -/
def notTxtHead : List Piece → Prop
  | [] => True
  | .txt _ :: _ => False
  | _ => True

/-- Alternation: text pieces are nonempty and never adjacent. -/
def Alt : List Piece → Prop
  | [] => True
  | .txt A :: rest => A ≠ [] ∧ notTxtHead rest ∧ Alt rest
  | _ :: rest => Alt rest

theorem flat_append (ps qs : List Piece) :
    flat (ps ++ qs) = flat ps ++ flat qs := by
  induction ps with
  | nil => rfl
  | cons p ps ih => simp [flat, ih]

theorem fslotRun_qf (hid : Bool) :
    ∀ c ∈ (if hid then hiddenMark else ([] : List Char)), c ≠ '"' := by
  cases hid <;> decide

/-- The text of a non-text-headed well-formed piece list is slot-headed. -/
theorem flatXShape {ks : List MK} {ps : List Piece} (hOK : PiecesOK ks ps)
    (hh : notTxtHead ps) : XShape (flat ps) := by
  cases ps with
  | nil => exact Or.inl rfl
  | cons p rest =>
    cases p with
    | txt A => exact absurd hh (by simp [notTxtHead])
    | fslot i hid =>
      refine Or.inr (Or.inl ⟨i, if hid then hiddenMark else [], flat rest,
        fslotRun_qf hid, ?_⟩)
      simp [flat, pieceStr]
    | dslot r =>
      refine Or.inr (Or.inr ⟨r, flat rest, ?_, ?_⟩)
      · exact hOK (Piece.dslot r) (by simp)
      · simp [flat, pieceStr]

theorem notTxtHead_append {xs ys : List Piece} (hx : notTxtHead xs)
    (hy : notTxtHead ys) : notTxtHead (xs ++ ys) := by
  cases xs with
  | nil => exact hy
  | cons p xs => cases p <;> simpa [notTxtHead] using hx

theorem Alt_append {xs ys : List Piece} (hx : Alt xs) (hy : Alt ys)
    (hys : notTxtHead ys) : Alt (xs ++ ys) := by
  induction xs with
  | nil => exact hy
  | cons p xs ih =>
    cases p with
    | txt A =>
      obtain ⟨hA, hh, hrest⟩ := hx
      exact ⟨hA, notTxtHead_append hh hys, ih hrest⟩
    | fslot i hid => exact ih hx
    | dslot r => exact ih hx

theorem PiecesOK_append {ks : List MK} {xs ys : List Piece}
    (hx : PiecesOK ks xs) (hy : PiecesOK ks ys) : PiecesOK ks (xs ++ ys) := by
  intro p hp
  rcases List.mem_append.mp hp with h | h
  · exact hx p h
  · exact hy p h

theorem PiecesOK_of_append {ks : List MK} {xs ys : List Piece}
    (h : PiecesOK ks (xs ++ ys)) : PiecesOK ks xs ∧ PiecesOK ks ys :=
  ⟨fun p hp => h p (List.mem_append.mpr (Or.inl hp)),
   fun p hp => h p (List.mem_append.mpr (Or.inr hp))⟩

theorem PiecesOK_cons {ks : List MK} {p : Piece} {ps : List Piece}
    (hp : PieceOK ks p) (hps : PiecesOK ks ps) : PiecesOK ks (p :: ps) := by
  intro q hq
  rcases List.mem_cons.mp hq with rfl | hq
  · exact hp
  · exact hps q hq

theorem PiecesOK_of_cons {ks : List MK} {p : Piece} {ps : List Piece}
    (h : PiecesOK ks (p :: ps)) : PieceOK ks p ∧ PiecesOK ks ps :=
  ⟨h p (by simp), fun q hq => h q (by simp [hq])⟩

/-- Growing the matcher set: text pieces must be inert for the new
matcher as well. -/
theorem PiecesOK_grow {ks : List MK} {m : MK} {ps : List Piece}
    (h : PiecesOK ks ps)
    (hm : ∀ A, Piece.txt A ∈ ps → InertStr m A) : PiecesOK (m :: ks) ps := by
  intro p hp
  cases p with
  | txt A =>
    intro m' hm'
    rcases List.mem_cons.mp hm' with rfl | hm'
    · exact hm A hp
    · exact h (Piece.txt A) hp m' hm'
  | fslot i hid => trivial
  | dslot r => exact h (Piece.dslot r) hp

/-- Shrinking the matcher set. -/
theorem PiecesOK_shrink {ks : List MK} {m : MK} {ps : List Piece}
    (h : PiecesOK (m :: ks) ps) : PiecesOK ks ps := by
  intro p hp
  cases p with
  | txt A => exact fun m' hm' => h (Piece.txt A) hp m' (by simp [hm'])
  | fslot i hid => trivial
  | dslot r => exact h (Piece.dslot r) hp

/-- One hide pass on pieces: set every `j` flag slot hidden. -/
def hideP (j : FlagId) : List Piece → List Piece
  | [] => []
  | .fslot i hid :: ps =>
    (if i = j then .fslot j true else .fslot i hid) :: hideP j ps
  | p :: ps => p :: hideP j ps

/-- All three hide passes on pieces: set every flag slot hidden. -/
def allHidP : List Piece → List Piece
  | [] => []
  | .fslot i _ :: ps => .fslot i true :: allHidP ps
  | p :: ps => p :: allHidP ps

theorem hideP_comp (ps : List Piece) :
    hideP .white (hideP .yellow (hideP .red ps)) = allHidP ps := by
  induction ps with
  | nil => rfl
  | cons p ps ih =>
    cases p with
    | txt A => simp [hideP, allHidP, ih]
    | fslot i hid => cases i <;> simp [hideP, allHidP, ih]
    | dslot r => simp [hideP, allHidP, ih]

/-- Every flag slot of the list is hidden. -/
def AllHid (ps : List Piece) : Prop :=
  ∀ i hid, Piece.fslot i hid ∈ ps → hid = true

theorem allHidP_eq_self {ps : List Piece} (h : AllHid ps) : allHidP ps = ps := by
  induction ps with
  | nil => rfl
  | cons p ps ih =>
    have hps : AllHid ps := fun i hid hmem => h i hid (by simp [hmem])
    cases p with
    | txt A => simp [allHidP, ih hps]
    | fslot i hid =>
      have := h i hid (by simp)
      subst this
      simp [allHidP, ih hps]
    | dslot r => simp [allHidP, ih hps]

theorem allHidP_append (xs ys : List Piece) :
    allHidP (xs ++ ys) = allHidP xs ++ allHidP ys := by
  induction xs with
  | nil => rfl
  | cons p xs ih => cases p <;> simp [allHidP, ih]

theorem notTxtHead_hideP (j : FlagId) {ps : List Piece} (h : notTxtHead ps) :
    notTxtHead (hideP j ps) := by
  cases ps with
  | nil => trivial
  | cons p ps =>
    cases p with
    | txt A => exact absurd h (by simp [notTxtHead])
    | fslot i hid =>
      by_cases hij : i = j <;> simp [hideP, hij, notTxtHead]
    | dslot r => simp [hideP, notTxtHead]

theorem Alt_hideP (j : FlagId) {ps : List Piece} (h : Alt ps) :
    Alt (hideP j ps) := by
  induction ps with
  | nil => trivial
  | cons p ps ih =>
    cases p with
    | txt A =>
      obtain ⟨hA, hh, hrest⟩ := h
      exact ⟨hA, notTxtHead_hideP j hh, ih hrest⟩
    | fslot i hid =>
      by_cases hij : i = j <;> simpa [hideP, hij, Alt] using ih h
    | dslot r => simpa [hideP, Alt] using ih h

theorem PiecesOK_hideP (j : FlagId) {ks : List MK} {ps : List Piece}
    (h : PiecesOK ks ps) : PiecesOK ks (hideP j ps) := by
  induction ps with
  | nil => simpa [hideP] using h
  | cons p ps ih =>
    obtain ⟨hp, hps⟩ := PiecesOK_of_cons h
    cases p with
    | txt A => exact PiecesOK_cons hp (ih hps)
    | fslot i hid =>
      by_cases hij : i = j
      · have h1 : PiecesOK ks (Piece.fslot j true :: hideP j ps) :=
          PiecesOK_cons (show PieceOK ks (Piece.fslot j true) from trivial)
            (ih hps)
        simpa [hideP, hij] using h1
      · have h1 : PiecesOK ks (Piece.fslot i hid :: hideP j ps) :=
          PiecesOK_cons (show PieceOK ks (Piece.fslot i hid) from trivial)
            (ih hps)
        simpa [hideP, hij] using h1
    | dslot r => exact PiecesOK_cons hp (ih hps)

theorem scanAll_nil (lit1 : List Char) (stop : Char) (lit2 rep : List Char)
    (hlit : lit1 ≠ []) : scanAll lit1 stop lit2 rep hlit [] = [] := by
  rw [scanAll]

/-- Slot texts have `<`-free tails. -/
theorem fslot_tail_noLt (i : FlagId) (hid : Bool) :
    ∀ c ∈ (pieceStr (Piece.fslot i hid)).drop 1, c ≠ '<' := by
  cases i <;> cases hid <;> decide

/-- Evaluating one hide pass on a decomposition whose text regions are
already inert for that pass: every `j` slot is re-hidden in place,
everything else is kept verbatim. -/
theorem hidePass_eval (j : FlagId) (ks : List MK) (hj : MK.mfk j ∈ ks) :
    ∀ ps, Alt ps → PiecesOK ks ps →
      hideFlagPass j (flat ps) = flat (hideP j ps) := by
  intro ps
  induction ps with
  | nil =>
    intro _ _
    show scanAll _ _ _ _ _ [] = _
    rw [scanAll_nil]
    rfl
  | cons p rest ih =>
    intro hAlt hOK
    obtain ⟨hpOK, hrestOK⟩ := PiecesOK_of_cons hOK
    cases p with
    | txt A =>
      obtain ⟨hA, hh, hAltRest⟩ := hAlt
      have hXrest : XShape (flat rest) := flatXShape hrestOK hh
      have hskip : ∀ k, k < A.length →
          litMatch flagOpen '"' (flagClose j) (A.drop k ++ flat rest) = none :=
        fun k hk => hpOK (MK.mfk j) hj k hk (flat rest) hXrest
      show scanAll _ _ _ _ _ (A ++ flat rest) = _
      rw [scanAll_skip _ _ _ _ _ A (flat rest) hskip]
      show A ++ hideFlagPass j (flat rest) = _
      rw [ih hAltRest hrestOK]
      simp [hideP, flat, pieceStr]
    | fslot i hid =>
      by_cases hij : i = j
      · subst hij
        have hmatch := flagMatch_fs_same i (if hid then hiddenMark else [])
          (flat rest) (fslotRun_qf hid)
        show scanAll _ _ _ _ _
          (flagOpen ++ (if hid then hiddenMark else []) ++ flagClose i ++
            flat rest) = _
        rw [scanAll_step _ _ _ _ _ hmatch]
        show flagOpen ++ hiddenMark ++ flagClose i ++ hideFlagPass i (flat rest) = _
        rw [ih hAlt hrestOK]
        simp [hideP, flat, pieceStr]
      · have hskip : ∀ k, k < (pieceStr (Piece.fslot i hid)).length →
            litMatch flagOpen '"' (flagClose j)
              ((pieceStr (Piece.fslot i hid)).drop k ++ flat rest) = none := by
          intro k hk
          cases k with
          | zero =>
            simpa [pieceStr] using
              flagMatch_fs_cross j i (Ne.symm hij)
                (if hid then hiddenMark else []) (flat rest) (fslotRun_qf hid)
          | succ k =>
            exact litMatch_interior_noLt flagOpen '"' (flagClose j) _
              flagOpen_cons _ (fslot_tail_noLt i hid) (flat rest) (k + 1)
              (by omega) hk
        show scanAll _ _ _ _ _ (pieceStr (Piece.fslot i hid) ++ flat rest) = _
        rw [scanAll_skip _ _ _ _ _ _ (flat rest) hskip]
        show pieceStr (Piece.fslot i hid) ++ hideFlagPass j (flat rest) = _
        rw [ih hAlt hrestOK]
        simp [hideP, hij, flat, pieceStr]
    | dslot r =>
      have hr : ∀ c ∈ r, c ≠ '<' := hpOK
      have hskip : ∀ k, k < (dateHead ++ r ++ dateTail).length →
          litMatch flagOpen '"' (flagClose j)
            ((dateHead ++ r ++ dateTail).drop k ++ flat rest) = none := by
        intro k hk
        cases k with
        | zero => simpa using flagMatch_ds j r (flat rest)
        | succ k =>
          exact flagMatch_ds_interior j r hr (flat rest) (k + 1) (by omega) hk
      show scanAll _ _ _ _ _ ((dateHead ++ r ++ dateTail) ++ flat rest) = _
      rw [scanAll_skip _ _ _ _ _ _ (flat rest) hskip]
      show (dateHead ++ r ++ dateTail) ++ hideFlagPass j (flat rest) = _
      rw [ih hAlt hrestOK]
      simp [hideP, flat, pieceStr]

/-- An optional text piece: nothing for the empty region. -/
def txtO (A : List Char) : List Piece :=
  if A = [] then [] else [Piece.txt A]

theorem flat_txtO (A : List Char) (qs : List Piece) :
    flat (txtO A ++ qs) = A ++ flat qs := by
  by_cases hA : A = []
  · subst hA
    simp [txtO]
  · simp [txtO, hA, flat, pieceStr]

theorem Alt_txtO {A : List Char} {qs : List Piece} (hh : notTxtHead qs)
    (hq : Alt qs) : Alt (txtO A ++ qs) := by
  by_cases hA : A = []
  · subst hA
    simpa [txtO]
  · have ht : txtO A = [Piece.txt A] := by simp [txtO, hA]
    rw [ht]
    show Alt (Piece.txt A :: qs)
    exact ⟨hA, hh, hq⟩

theorem PiecesOK_txtO {ks : List MK} {A : List Char} {qs : List Piece}
    (hA : InertFor ks A) (hq : PiecesOK ks qs) : PiecesOK ks (txtO A ++ qs) := by
  by_cases h : A = []
  · subst h
    simpa [txtO]
  · have ht : txtO A = [Piece.txt A] := by simp [txtO, h]
    rw [ht]
    exact PiecesOK_cons (show PieceOK ks (Piece.txt A) from hA) hq

theorem mem_txtO {p : Piece} {A : List Char} (h : p ∈ txtO A) :
    p = Piece.txt A := by
  by_cases hA : A = []
  · simp [txtO, hA] at h
  · simpa [txtO, hA] using h

theorem flat_txtO_nil (A : List Char) : flat (txtO A) = A := by
  by_cases hA : A = []
  · subst hA
    simp [txtO, flat]
  · simp [txtO, hA, flat, pieceStr]

theorem PiecesOK_txtO_nil {ks : List MK} {A : List Char}
    (hA : InertFor ks A) : PiecesOK ks (txtO A) := by
  by_cases h : A = []
  · subst h
    intro p hp
    simp [txtO] at hp
  · intro p hp
    rw [mem_txtO hp]
    exact hA

theorem inertFor_suffix {ks : List MK} {A P B : List Char}
    (h : InertFor ks A) (hA : A = P ++ B) : InertFor ks B := by
  intro m hm
  have := h m hm
  rw [hA] at this
  exact inertStr_suffix m this

theorem pieceStr_fslot_pos (i : FlagId) (hid : Bool) :
    0 < (pieceStr (Piece.fslot i hid)).length := by
  simp [pieceStr, flagOpen_length]

theorem pieceStr_dslot_pos (r : List Char) :
    0 < (pieceStr (Piece.dslot r)).length := by
  simp [pieceStr, dateHead_length]

/-- Running a fresh hide pass over a decomposition: the result is again
a decomposition, its text regions are additionally inert for the pass's
matcher, every rewritten region becomes a hidden `j` slot, and all old
slots survive verbatim. -/
theorem hideScan (j : FlagId) (ks : List MK) :
    ∀ n ps, (flat ps).length < n → Alt ps → PiecesOK ks ps →
      ∃ ps', hideFlagPass j (flat ps) = flat ps' ∧ Alt ps' ∧
        PiecesOK (MK.mfk j :: ks) ps' ∧
        (∀ p ∈ ps', (∃ A, p = Piece.txt A) ∨ p = Piece.fslot j true ∨ p ∈ ps) ∧
        (notTxtHead ps → notTxtHead ps') := by
  intro n
  induction n with
  | zero =>
    intro ps h _ _
    exact absurd h (Nat.not_lt_zero _)
  | succ n ihn =>
    intro ps hlen hAlt hOK
    cases ps with
    | nil =>
      refine ⟨[], ?_, trivial, fun p hp => absurd hp (List.not_mem_nil p),
        fun p hp => absurd hp (List.not_mem_nil p), fun _ => trivial⟩
      show scanAll _ _ _ _ _ [] = _
      rw [scanAll_nil]
      rfl
    | cons p rest =>
      obtain ⟨hpOK, hrestOK⟩ := PiecesOK_of_cons hOK
      cases p with
      | txt A =>
        obtain ⟨hA, hh, hAltRest⟩ := hAlt
        have hXrest : XShape (flat rest) := flatXShape hrestOK hh
        have hlenA : A.length + (flat rest).length < n + 1 := by
          have : flat (Piece.txt A :: rest) = A ++ flat rest := rfl
          rw [this] at hlen
          simpa using hlen
        rcases firstMatchSplit (MK.mfk j) A with hin | ⟨U, E, B, hUEB, hE, hU, hsome⟩
        · -- the whole region is matchless: it survives verbatim
          obtain ⟨ps'', hflat'', hAlt'', hOK'', hmem'', hhh''⟩ :=
            ihn rest (by have := List.length_pos.mpr hA; omega) hAltRest hrestOK
          refine ⟨Piece.txt A :: ps'', ?_, ⟨hA, hhh'' hh, hAlt''⟩, ?_, ?_,
            fun h => h.elim⟩
          · show scanAll _ _ _ _ _ (A ++ flat rest) = _
            rw [scanAll_skip _ _ _ _ _ A (flat rest)
              (fun k hk => hin k hk (flat rest) hXrest)]
            show A ++ hideFlagPass j (flat rest) = _
            rw [hflat'']
            rfl
          · refine PiecesOK_cons ?_ hOK''
            intro m hm
            rcases List.mem_cons.mp hm with rfl | hm
            · exact hin
            · exact hpOK m hm
          · intro p hp
            rcases List.mem_cons.mp hp with rfl | hp
            · exact Or.inl ⟨A, rfl⟩
            · rcases hmem'' p hp with h | h | h
              · exact Or.inl h
              · exact Or.inr (Or.inl h)
              · exact Or.inr (Or.inr (by simp [h]))
        · -- first match found: skip `U`, rewrite the match, recurse
          obtain ⟨run, hrun, hEeq⟩ := hE
          have hEpos : 0 < E.length := mtext_length_pos (MK.mfk j) ⟨run, hrun, hEeq⟩
          have hlens : A.length = U.length + (E.length + B.length) := by
            have := congrArg List.length hUEB
            simpa using this
          have hInB : InertFor ks B :=
            inertFor_suffix hpOK (by rw [hUEB, ← List.append_assoc])
          obtain ⟨ps'', hflat'', hAlt'', hOK'', hmem'', hhh''⟩ :=
            ihn (txtO B ++ rest)
              (by rw [flat_txtO]; simp; omega)
              (Alt_txtO hh hAltRest)
              (PiecesOK_txtO hInB hrestOK)
          have hmatch : litMatch flagOpen '"' (flagClose j)
              (E ++ (B ++ flat rest)) = some (B ++ flat rest) := by
            have := hsome (flat rest) hXrest
            rwa [List.append_assoc] at this
          refine ⟨txtO U ++ Piece.fslot j true :: ps'', ?_,
            Alt_txtO trivial hAlt'', ?_, ?_, fun h => h.elim⟩
          · show scanAll _ _ _ _ _ (A ++ flat rest) = _
            rw [show A ++ flat rest = U ++ (E ++ (B ++ flat rest)) by
              rw [hUEB]; simp]
            rw [scanAll_skip _ _ _ _ _ U (E ++ (B ++ flat rest))
              (fun k hk => hU k hk _
                (mtext_shape (MK.mfk j) ⟨run, hrun, hEeq⟩ (B ++ flat rest)))]
            rw [scanAll_step _ _ _ _ _ hmatch]
            show U ++ ((flagOpen ++ hiddenMark ++ flagClose j) ++
              hideFlagPass j (B ++ flat rest)) = _
            rw [show B ++ flat rest = flat (txtO B ++ rest) by rw [flat_txtO]]
            rw [hflat'', flat_txtO]
            simp [flat, pieceStr]
          · refine PiecesOK_txtO ?_ (PiecesOK_cons trivial hOK'')
            intro m hm
            rcases List.mem_cons.mp hm with rfl | hm
            · exact hU
            · exact inertStr_split_left m (MK.mfk j) ⟨run, hrun, hEeq⟩
                (by have := hpOK m hm; rwa [hUEB] at this)
          · intro p hp
            rcases List.mem_append.mp hp with hp | hp
            · exact Or.inl ⟨U, mem_txtO hp⟩
            · rcases List.mem_cons.mp hp with rfl | hp
              · exact Or.inr (Or.inl rfl)
              · rcases hmem'' p hp with h | h | h
                · exact Or.inl h
                · exact Or.inr (Or.inl h)
                · rcases List.mem_append.mp h with h | h
                  · exact Or.inl ⟨B, mem_txtO h⟩
                  · exact Or.inr (Or.inr (by simp [h]))
      | fslot i hid =>
        have hlenR : (flat rest).length < n := by
          have : flat (Piece.fslot i hid :: rest) =
              pieceStr (Piece.fslot i hid) ++ flat rest := rfl
          rw [this] at hlen
          have := pieceStr_fslot_pos i hid
          simp at hlen
          omega
        obtain ⟨ps'', hflat'', hAlt'', hOK'', hmem'', hhh''⟩ :=
          ihn rest hlenR hAlt hrestOK
        by_cases hij : i = j
        · subst hij
          refine ⟨Piece.fslot i true :: ps'', ?_, hAlt'', PiecesOK_cons trivial hOK'',
            ?_, fun _ => trivial⟩
          · have hmatch := flagMatch_fs_same i (if hid then hiddenMark else [])
              (flat rest) (fslotRun_qf hid)
            show scanAll _ _ _ _ _
              (flagOpen ++ (if hid then hiddenMark else []) ++ flagClose i ++
                flat rest) = _
            rw [scanAll_step _ _ _ _ _ hmatch]
            show flagOpen ++ hiddenMark ++ flagClose i ++
              hideFlagPass i (flat rest) = _
            rw [hflat'']
            simp [flat, pieceStr]
          · intro p hp
            rcases List.mem_cons.mp hp with rfl | hp
            · exact Or.inr (Or.inl rfl)
            · rcases hmem'' p hp with h | h | h
              · exact Or.inl h
              · exact Or.inr (Or.inl h)
              · exact Or.inr (Or.inr (by simp [h]))
        · refine ⟨Piece.fslot i hid :: ps'', ?_, hAlt'', PiecesOK_cons trivial hOK'',
            ?_, fun _ => trivial⟩
          · have hskip : ∀ k, k < (pieceStr (Piece.fslot i hid)).length →
                litMatch flagOpen '"' (flagClose j)
                  ((pieceStr (Piece.fslot i hid)).drop k ++ flat rest) = none := by
              intro k hk
              cases k with
              | zero =>
                simpa [pieceStr] using
                  flagMatch_fs_cross j i (Ne.symm hij)
                    (if hid then hiddenMark else []) (flat rest) (fslotRun_qf hid)
              | succ k =>
                exact litMatch_interior_noLt flagOpen '"' (flagClose j) _
                  flagOpen_cons _ (fslot_tail_noLt i hid) (flat rest) (k + 1)
                  (by omega) hk
            show scanAll _ _ _ _ _ (pieceStr (Piece.fslot i hid) ++ flat rest) = _
            rw [scanAll_skip _ _ _ _ _ _ (flat rest) hskip]
            show pieceStr (Piece.fslot i hid) ++ hideFlagPass j (flat rest) = _
            rw [hflat'']
            rfl
          · intro p hp
            rcases List.mem_cons.mp hp with rfl | hp
            · exact Or.inr (Or.inr (by simp))
            · rcases hmem'' p hp with h | h | h
              · exact Or.inl h
              · exact Or.inr (Or.inl h)
              · exact Or.inr (Or.inr (by simp [h]))
      | dslot r =>
        have hr : ∀ c ∈ r, c ≠ '<' := hpOK
        have hlenR : (flat rest).length < n := by
          have : flat (Piece.dslot r :: rest) =
              pieceStr (Piece.dslot r) ++ flat rest := rfl
          rw [this] at hlen
          have := pieceStr_dslot_pos r
          simp at hlen
          omega
        obtain ⟨ps'', hflat'', hAlt'', hOK'', hmem'', hhh''⟩ :=
          ihn rest hlenR hAlt hrestOK
        refine ⟨Piece.dslot r :: ps'', ?_, hAlt'', PiecesOK_cons hr hOK'',
          ?_, fun _ => trivial⟩
        · have hskip : ∀ k, k < (dateHead ++ r ++ dateTail).length →
              litMatch flagOpen '"' (flagClose j)
                ((dateHead ++ r ++ dateTail).drop k ++ flat rest) = none := by
            intro k hk
            cases k with
            | zero => simpa using flagMatch_ds j r (flat rest)
            | succ k =>
              exact flagMatch_ds_interior j r hr (flat rest) (k + 1)
                (by omega) hk
          show scanAll _ _ _ _ _ ((dateHead ++ r ++ dateTail) ++ flat rest) = _
          rw [scanAll_skip _ _ _ _ _ _ (flat rest) hskip]
          show (dateHead ++ r ++ dateTail) ++ hideFlagPass j (flat rest) = _
          rw [hflat'']
          rfl
        · intro p hp
          rcases List.mem_cons.mp hp with rfl | hp
          · exact Or.inr (Or.inr (by simp))
          · rcases hmem'' p hp with h | h | h
            · exact Or.inl h
            · exact Or.inr (Or.inl h)
            · exact Or.inr (Or.inr (by simp [h]))

/-! ### The show pass on a decomposition -/

/-- Where the hide matcher fails, the literal `hiddenFlag` cannot begin. -/
theorem bw_hiddenFlag_false_of_none (i : FlagId) {l : List Char}
    (h : litMatch flagOpen '"' (flagClose i) l = none) :
    beginsWith (hiddenFlag i) l = false := by
  cases hb : beginsWith (hiddenFlag i) l
  · rfl
  · obtain ⟨t, rfl⟩ := (beginsWith_iff_append _ _).mp hb
    rw [bw_hiddenFlag_match i t] at h
    cases h

/-- The hidden literal of `ℓ` does not begin at a shown `ℓ` slot. -/
theorem bw_hiddenFlag_shown (ℓ : FlagId) (z : List Char) :
    beginsWith (hiddenFlag ℓ) (pieceStr (Piece.fslot ℓ false) ++ z) = false := by
  exact bw_append_false _ _ _ (by cases ℓ <;> decide)

/-- The hidden literal of `ℓ` begins nowhere on a piece that is not a
hidden `ℓ` slot (at its head) nor inside any piece. -/
theorem bw_hiddenFlag_txt_skip (ℓ : FlagId) (ks : List MK)
    (hℓ : MK.mfk ℓ ∈ ks) {A : List Char} (hOK : InertFor ks A)
    (z : List Char) (hz : XShape z) :
    ∀ k, k < A.length →
      beginsWith (hiddenFlag ℓ) (A.drop k ++ z) = false :=
  fun k hk => bw_hiddenFlag_false_of_none ℓ (hOK (MK.mfk ℓ) hℓ k hk z hz)

/-- The hidden literal of `ℓ` begins nowhere on a slot piece other than
a hidden `ℓ` slot, for any continuation. -/
theorem bw_hiddenFlag_slot_skip (ℓ : FlagId) (p : Piece)
    (hp : PieceOK [] p) (hne : ∀ hid, p ≠ Piece.fslot ℓ hid)
    (htxt : ∀ A, p ≠ Piece.txt A) (z : List Char) :
    ∀ k, k < (pieceStr p).length →
      beginsWith (hiddenFlag ℓ) ((pieceStr p).drop k ++ z) = false := by
  intro k hk
  cases p with
  | txt A => exact absurd rfl (htxt A)
  | fslot i hid =>
    have hiℓ : i ≠ ℓ := by
      intro h
      exact hne hid (by rw [h])
    cases k with
    | zero =>
      apply bw_hiddenFlag_false_of_none ℓ
      simpa [pieceStr] using
        flagMatch_fs_cross ℓ i (Ne.symm hiℓ)
          (if hid then hiddenMark else []) z (fslotRun_qf hid)
    | succ k =>
      apply bw_hiddenFlag_false_of_none ℓ
      exact litMatch_interior_noLt flagOpen '"' (flagClose ℓ) _
        flagOpen_cons _ (fslot_tail_noLt i hid) z (k + 1) (by omega) hk
  | dslot r =>
    cases k with
    | zero =>
      apply bw_hiddenFlag_false_of_none ℓ
      simpa [pieceStr] using flagMatch_ds ℓ r z
    | succ k =>
      apply bw_hiddenFlag_false_of_none ℓ
      exact flagMatch_ds_interior ℓ r hp z (k + 1) (by omega) hk

/-- The show pass leaves a decomposition without `ℓ` slots unchanged. -/
theorem showPass_skip_all (ℓ : FlagId) (ks : List MK) (hℓ : MK.mfk ℓ ∈ ks) :
    ∀ ps, Alt ps → PiecesOK ks ps → (∀ hid, Piece.fslot ℓ hid ∉ ps) →
      replaceFirstLit (hiddenFlag ℓ) (shownFlag ℓ) (flat ps) = flat ps := by
  intro ps
  induction ps with
  | nil => intro _ _ _; rfl
  | cons p rest ih =>
    intro hAlt hOK hno
    obtain ⟨hpOK, hrestOK⟩ := PiecesOK_of_cons hOK
    have hnoR : ∀ hid, Piece.fslot ℓ hid ∉ rest := by
      intro hid hmem
      exact hno hid (by simp [hmem])
    cases p with
    | txt A =>
      obtain ⟨hA, hh, hAltRest⟩ := hAlt
      have hz : XShape (flat rest) := flatXShape hrestOK hh
      show replaceFirstLit _ _ (A ++ flat rest) = _
      rw [replaceFirstLit_skip _ _ A (flat rest)
        (bw_hiddenFlag_txt_skip ℓ ks hℓ hpOK (flat rest) hz),
        ih hAltRest hrestOK hnoR]
      rfl
    | fslot i hid =>
      have hne : ∀ h, Piece.fslot i hid ≠ Piece.fslot ℓ h := by
        intro h hcon
        cases hcon
        exact hno hid (by simp)
      show replaceFirstLit _ _ (pieceStr (Piece.fslot i hid) ++ flat rest) = _
      rw [replaceFirstLit_skip _ _ _ (flat rest)
        (bw_hiddenFlag_slot_skip ℓ (Piece.fslot i hid) trivial hne
          (fun A h => by cases h) (flat rest)),
        ih hAlt hrestOK hnoR]
      rfl
    | dslot r =>
      show replaceFirstLit _ _ (pieceStr (Piece.dslot r) ++ flat rest) = _
      rw [replaceFirstLit_skip _ _ _ (flat rest)
        (bw_hiddenFlag_slot_skip ℓ (Piece.dslot r) hpOK
          (fun h hcon => by cases hcon) (fun A h => by cases h) (flat rest)),
        ih hAlt hrestOK hnoR]
      rfl

/-- The show pass un-hides exactly the first hidden `ℓ` slot. -/
theorem showPass_toggle (ℓ : FlagId) (ks : List MK) (hℓ : MK.mfk ℓ ∈ ks) :
    ∀ pa pb, Alt (pa ++ Piece.fslot ℓ true :: pb) →
      PiecesOK ks (pa ++ Piece.fslot ℓ true :: pb) →
      (∀ hid, Piece.fslot ℓ hid ∉ pa) →
      replaceFirstLit (hiddenFlag ℓ) (shownFlag ℓ)
          (flat (pa ++ Piece.fslot ℓ true :: pb)) =
        flat (pa ++ Piece.fslot ℓ false :: pb) := by
  intro pa
  induction pa with
  | nil =>
    intro pb _ _ _
    have hbw : beginsWith (hiddenFlag ℓ)
        (hiddenFlag ℓ ++ flat pb) = true := beginsWith_append _ _
    show replaceFirstLit _ _ (pieceStr (Piece.fslot ℓ true) ++ flat pb) = _
    rw [show pieceStr (Piece.fslot ℓ true) = hiddenFlag ℓ by
      simp [pieceStr, hiddenFlag]]
    rw [replaceFirstLit_step _ _ (by simp [hiddenFlag, flagOpen]) hbw,
      List.drop_left]
    simp [flat, pieceStr, shownFlag]
  | cons p pa ih =>
    intro pb hAlt hOK hno
    obtain ⟨hpOK, hrestOK⟩ := PiecesOK_of_cons hOK
    have hnoR : ∀ hid, Piece.fslot ℓ hid ∉ pa := by
      intro hid hmem
      exact hno hid (by simp [hmem])
    cases p with
    | txt A =>
      obtain ⟨hA, hh, hAltRest⟩ := hAlt
      have hz : XShape (flat (pa ++ Piece.fslot ℓ true :: pb)) :=
        flatXShape hrestOK hh
      show replaceFirstLit _ _
        (A ++ flat (pa ++ Piece.fslot ℓ true :: pb)) = _
      rw [replaceFirstLit_skip _ _ A _
        (bw_hiddenFlag_txt_skip ℓ ks hℓ hpOK _ hz),
        ih pb hAltRest hrestOK hnoR]
      rfl
    | fslot i hid =>
      have hne : ∀ h, Piece.fslot i hid ≠ Piece.fslot ℓ h := by
        intro h hcon
        cases hcon
        exact hno hid (by simp)
      show replaceFirstLit _ _
        (pieceStr (Piece.fslot i hid) ++ flat (pa ++ Piece.fslot ℓ true :: pb)) = _
      rw [replaceFirstLit_skip _ _ _ _
        (bw_hiddenFlag_slot_skip ℓ (Piece.fslot i hid) trivial hne
          (fun A h => by cases h) _),
        ih pb hAlt hrestOK hnoR]
      rfl
    | dslot r =>
      show replaceFirstLit _ _
        (pieceStr (Piece.dslot r) ++ flat (pa ++ Piece.fslot ℓ true :: pb)) = _
      rw [replaceFirstLit_skip _ _ _ _
        (bw_hiddenFlag_slot_skip ℓ (Piece.dslot r) hpOK
          (fun h hcon => by cases hcon) (fun A h => by cases h) _),
        ih pb hAlt hrestOK hnoR]
      rfl

/-! ### The date pass on a decomposition -/

theorem dateHead_ne_nil : dateHead ≠ [] := by decide

/-- The date matcher fails everywhere on a flag slot piece. -/
theorem dateMatch_fslot_skip (i : FlagId) (hid : Bool) (z : List Char) :
    ∀ k, k < (pieceStr (Piece.fslot i hid)).length →
      litMatch dateHead '<' dateTail
        ((pieceStr (Piece.fslot i hid)).drop k ++ z) = none := by
  intro k hk
  cases k with
  | zero =>
    simpa [pieceStr] using
      dateMatch_fs i (if hid then hiddenMark else []) z
  | succ k =>
    exact litMatch_interior_noLt dateHead '<' dateTail _
      dateHead_cons _ (fslot_tail_noLt i hid) z (k + 1) (by omega) hk

/-- No date span piece occurs in the list. -/
def NoDs (ps : List Piece) : Prop := ∀ r, Piece.dslot r ∉ ps

theorem NoDs_of_cons {p : Piece} {ps : List Piece} (h : NoDs (p :: ps)) :
    NoDs ps := fun r hr => h r (by simp [hr])

/-- Running the date pass over a decomposition with no date slots:
either there is no date span anywhere (and the text is unchanged, now
known date-inert), or the first date span sits inside some text region,
which the pass splits around a rewritten date slot. -/
theorem dateScan (ks : List MK) (D : List Char) (hD : ∀ c ∈ D, c ≠ '<') :
    ∀ ps, Alt ps → PiecesOK ks ps → NoDs ps →
      (updateDate D (flat ps) = flat ps ∧ PiecesOK (MK.mdk :: ks) ps) ∨
      (∃ pa A U rd V pb,
        ps = pa ++ Piece.txt A :: pb ∧
        A = U ++ (dateHead ++ rd ++ dateTail) ++ V ∧
        (∀ c ∈ rd, c ≠ '<') ∧
        updateDate D (flat ps) =
          flat (pa ++ txtO U ++ Piece.dslot D :: txtO V ++ pb) ∧
        Alt (pa ++ txtO U ++ Piece.dslot D :: txtO V ++ pb) ∧
        PiecesOK ks (pa ++ txtO U ++ Piece.dslot D :: txtO V ++ pb) ∧
        PiecesOK (MK.mdk :: ks) (pa ++ txtO U) ∧
        NoDs (pa ++ txtO U) ∧
        (notTxtHead ps →
          notTxtHead (pa ++ txtO U ++ Piece.dslot D :: txtO V ++ pb))) := by
  intro ps
  induction ps with
  | nil =>
    intro _ _ _
    exact Or.inl ⟨rfl, fun p hp => absurd hp (List.not_mem_nil p)⟩
  | cons p rest ih =>
    intro hAlt hOK hNoDs
    obtain ⟨hpOK, hrestOK⟩ := PiecesOK_of_cons hOK
    have hNoDsR := NoDs_of_cons hNoDs
    cases p with
    | txt A =>
      obtain ⟨hA, hh, hAltRest⟩ := hAlt
      have hz : XShape (flat rest) := flatXShape hrestOK hh
      rcases firstMatchSplit MK.mdk A with hin | ⟨U, E, B, hUEB, hE, hU, hsome⟩
      · have hskip : ∀ k, k < A.length →
            litMatch dateHead '<' dateTail (A.drop k ++ flat rest) = none :=
          fun k hk => hin k hk (flat rest) hz
        rcases ih hAltRest hrestOK hNoDsR with ⟨heq, hOK'⟩ |
          ⟨pa, A', U, rd, V, pb, hps, hA', hrd, hout, hAltOut, houtOK,
            hpreOK, hpreDs, hhh⟩
        · left
          constructor
          · show scanFirst _ _ _ _ (A ++ flat rest) = _
            rw [scanFirst_skip _ _ _ _ A (flat rest) hskip]
            show A ++ updateDate D (flat rest) = _
            rw [heq]
            rfl
          · refine PiecesOK_cons ?_ hOK'
            intro m hm
            rcases List.mem_cons.mp hm with rfl | hm
            · exact hin
            · exact hpOK m hm
        · right
          refine ⟨Piece.txt A :: pa, A', U, rd, V, pb, by rw [hps]; rfl,
            hA', hrd, ?_, ?_, ?_, ?_, ?_, fun h => h.elim⟩
          · show scanFirst _ _ _ _ (A ++ flat rest) = _
            rw [scanFirst_skip _ _ _ _ A (flat rest) hskip]
            show A ++ updateDate D (flat rest) = _
            rw [hout]
            rfl
          · refine ⟨hA, ?_, hAltOut⟩
            exact hhh hh
          · exact PiecesOK_cons hpOK houtOK
          · refine PiecesOK_cons ?_ hpreOK
            intro m hm
            rcases List.mem_cons.mp hm with rfl | hm
            · exact hin
            · exact hpOK m hm
          · intro r hr
            rcases List.mem_cons.mp hr with h | h
            · cases h
            · exact hpreDs r h
      · obtain ⟨rd, hrd, hEeq⟩ := hE
        have hmatch : litMatch dateHead '<' dateTail
            (E ++ (B ++ flat rest)) = some (B ++ flat rest) := by
          have := hsome (flat rest) hz
          rwa [List.append_assoc] at this
        right
        refine ⟨[], A, U, rd, B, rest, rfl, by rw [hUEB, hEeq, ← List.append_assoc], hrd,
          ?_, ?_, ?_, ?_, ?_, fun h => h.elim⟩
        · show scanFirst _ _ _ _ (A ++ flat rest) = _
          rw [show A ++ flat rest = U ++ (E ++ (B ++ flat rest)) by
            rw [hUEB]; simp]
          rw [scanFirst_skip _ _ _ _ U (E ++ (B ++ flat rest))
            (fun k hk => hU k hk _
              (mtext_shape MK.mdk ⟨rd, hrd, hEeq⟩ (B ++ flat rest)))]
          rw [scanFirst_step _ _ _ _ dateHead_ne_nil hmatch]
          simp [flat_append, flat_txtO_nil, flat, pieceStr]
        · rw [List.nil_append, List.append_assoc]
          refine Alt_txtO
            (show notTxtHead ((Piece.dslot D :: txtO B) ++ rest) from trivial) ?_
          show Alt (txtO B ++ rest)
          exact Alt_txtO hh hAltRest
        · rw [List.nil_append]
          refine PiecesOK_append (PiecesOK_append (PiecesOK_txtO_nil ?_)
            (PiecesOK_cons (show PieceOK ks (Piece.dslot D) from hD)
              (PiecesOK_txtO_nil ?_))) hrestOK
          · intro m hm
            exact inertStr_split_left m MK.mdk ⟨rd, hrd, hEeq⟩
              (by have := hpOK m hm; rwa [hUEB] at this)
          · exact inertFor_suffix hpOK (by rw [hUEB, ← List.append_assoc])
        · rw [List.nil_append]
          refine PiecesOK_txtO_nil ?_
          intro m hm
          rcases List.mem_cons.mp hm with rfl | hm
          · exact hU
          · exact inertStr_split_left m MK.mdk ⟨rd, hrd, hEeq⟩
              (by have := hpOK m hm; rwa [hUEB] at this)
        · intro r hr
          rw [List.nil_append] at hr
          exact absurd (mem_txtO hr) (by intro h; cases h)
    | fslot i hid =>
      have hskip := dateMatch_fslot_skip i hid (flat rest)
      rcases ih hAlt hrestOK hNoDsR with ⟨heq, hOK'⟩ |
        ⟨pa, A', U, rd, V, pb, hps, hA', hrd, hout, hAltOut, houtOK,
          hpreOK, hpreDs, hhh⟩
      · left
        constructor
        · show scanFirst _ _ _ _ (pieceStr (Piece.fslot i hid) ++ flat rest) = _
          rw [scanFirst_skip _ _ _ _ _ (flat rest) hskip]
          show pieceStr (Piece.fslot i hid) ++ updateDate D (flat rest) = _
          rw [heq]
          rfl
        · exact PiecesOK_cons trivial hOK'
      · right
        refine ⟨Piece.fslot i hid :: pa, A', U, rd, V, pb, by rw [hps]; rfl,
          hA', hrd, ?_, ?_, ?_, PiecesOK_cons trivial hpreOK, ?_,
          fun _ => trivial⟩
        · show scanFirst _ _ _ _ (pieceStr (Piece.fslot i hid) ++ flat rest) = _
          rw [scanFirst_skip _ _ _ _ _ (flat rest) hskip]
          show pieceStr (Piece.fslot i hid) ++ updateDate D (flat rest) = _
          rw [hout]
          rfl
        · exact hAltOut
        · exact PiecesOK_cons trivial houtOK
        · intro r hr
          rcases List.mem_cons.mp hr with h | h
          · cases h
          · exact hpreDs r h
    | dslot r =>
      exact absurd (by simp : Piece.dslot r ∈ Piece.dslot r :: rest)
        (hNoDs r)

/-- The date pass leaves a date-inert decomposition with no date slots
unchanged. -/
theorem datePass_skip_all (ks : List MK) (D : List Char) (hks : MK.mdk ∈ ks) :
    ∀ ps, Alt ps → PiecesOK ks ps → NoDs ps →
      updateDate D (flat ps) = flat ps := by
  intro ps
  induction ps with
  | nil => intro _ _ _; rfl
  | cons p rest ih =>
    intro hAlt hOK hNoDs
    obtain ⟨hpOK, hrestOK⟩ := PiecesOK_of_cons hOK
    cases p with
    | txt A =>
      obtain ⟨hA, hh, hAltRest⟩ := hAlt
      have hz := flatXShape hrestOK hh
      show scanFirst _ _ _ _ (A ++ flat rest) = _
      rw [scanFirst_skip _ _ _ _ A (flat rest)
        (fun k hk => hpOK MK.mdk hks k hk (flat rest) hz)]
      show A ++ updateDate D (flat rest) = _
      rw [ih hAltRest hrestOK (NoDs_of_cons hNoDs)]
      rfl
    | fslot i hid =>
      show scanFirst _ _ _ _ (pieceStr (Piece.fslot i hid) ++ flat rest) = _
      rw [scanFirst_skip _ _ _ _ _ (flat rest)
        (dateMatch_fslot_skip i hid (flat rest))]
      show pieceStr (Piece.fslot i hid) ++ updateDate D (flat rest) = _
      rw [ih hAlt hrestOK (NoDs_of_cons hNoDs)]
      rfl
    | dslot r =>
      exact absurd (show Piece.dslot r ∈ Piece.dslot r :: rest by simp)
        (hNoDs r)

/-- The date pass stops at the first date slot and rewrites its run to
the same text. -/
theorem datePass_at_dslot (ks : List MK) (D : List Char)
    (hD : ∀ c ∈ D, c ≠ '<') :
    ∀ pre post, Alt (pre ++ Piece.dslot D :: post) →
      PiecesOK ks (pre ++ Piece.dslot D :: post) →
      (∀ A, Piece.txt A ∈ pre → InertStr MK.mdk A) → NoDs pre →
      updateDate D (flat (pre ++ Piece.dslot D :: post)) =
        flat (pre ++ Piece.dslot D :: post) := by
  intro pre
  induction pre with
  | nil =>
    intro post _ _ _ _
    have hmatch : litMatch dateHead '<' dateTail
        (pieceStr (Piece.dslot D) ++ flat post) = some (flat post) := by
      have := litMatch_eval dateHead '<' dateTail D (flat post) hD dateTail_head
      simpa [pieceStr] using this
    show scanFirst _ _ _ _ (pieceStr (Piece.dslot D) ++ flat post) = _
    rw [scanFirst_step _ _ _ _ dateHead_ne_nil hmatch]
    simp [flat, pieceStr]
  | cons p pre ih =>
    intro post hAlt hOK hpre hNoDs
    obtain ⟨hpOK, hrestOK⟩ := PiecesOK_of_cons hOK
    have hpreR : ∀ A, Piece.txt A ∈ pre → InertStr MK.mdk A :=
      fun A hA => hpre A (by simp [hA])
    cases p with
    | txt A =>
      obtain ⟨hA, hh, hAltRest⟩ := hAlt
      simp only [List.append_eq] at hh hAltRest hrestOK
      have hz := flatXShape hrestOK hh
      show scanFirst _ _ _ _
        (A ++ flat (pre ++ Piece.dslot D :: post)) = _
      rw [scanFirst_skip _ _ _ _ A _
        (fun k hk => hpre A (by simp) k hk _ hz)]
      show A ++ updateDate D (flat (pre ++ Piece.dslot D :: post)) = _
      rw [ih post hAltRest hrestOK hpreR (NoDs_of_cons hNoDs)]
      rfl
    | fslot i hid =>
      show scanFirst _ _ _ _
        (pieceStr (Piece.fslot i hid) ++ flat (pre ++ Piece.dslot D :: post)) = _
      rw [scanFirst_skip _ _ _ _ _ _ (dateMatch_fslot_skip i hid _)]
      show pieceStr (Piece.fslot i hid) ++
        updateDate D (flat (pre ++ Piece.dslot D :: post)) = _
      rw [ih post hAlt hrestOK hpreR (NoDs_of_cons hNoDs)]
      rfl
    | dslot r =>
      exact absurd (show Piece.dslot r ∈ Piece.dslot r :: pre by simp)
        (hNoDs r)

/-! ### Assembly helpers -/

/-- Two decompositions of one list around distinct middle elements are
nested one way or the other. -/
theorem middle_split {xs ys us vs : List Piece} {x y : Piece}
    (h : xs ++ x :: ys = us ++ y :: vs) (hxy : x ≠ y) :
    (∃ ws, us = xs ++ x :: ws ∧ ys = ws ++ y :: vs) ∨
    (∃ ws, xs = us ++ y :: ws ∧ vs = ws ++ x :: ys) := by
  induction xs generalizing us with
  | nil =>
    cases us with
    | nil =>
      simp at h
      exact absurd h.1 hxy
    | cons u us' =>
      simp at h
      obtain ⟨rfl, h2⟩ := h
      exact Or.inl ⟨us', by simp, h2⟩
  | cons p xs' ih =>
    cases us with
    | nil =>
      simp at h
      obtain ⟨rfl, h2⟩ := h
      exact Or.inr ⟨xs', by simp, h2.symm⟩
    | cons u us' =>
      simp at h
      obtain ⟨rfl, h2⟩ := h
      rcases ih h2 with ⟨ws, hus, hys⟩ | ⟨ws, hxs, hvs⟩
      · exact Or.inl ⟨ws, by rw [hus]; rfl, hys⟩
      · exact Or.inr ⟨ws, by rw [hxs]; rfl, hvs⟩

/-- Either a list has no `ℓ` flag slot, or it splits at the first one. -/
theorem first_fslot_split (ℓ : FlagId) (ps : List Piece) :
    (∀ hid, Piece.fslot ℓ hid ∉ ps) ∨
    ∃ pa hid pb, ps = pa ++ Piece.fslot ℓ hid :: pb ∧
      (∀ h, Piece.fslot ℓ h ∉ pa) := by
  induction ps with
  | nil => exact Or.inl (fun hid => List.not_mem_nil _)
  | cons p rest ih =>
    by_cases hp : ∃ hid, p = Piece.fslot ℓ hid
    · obtain ⟨hid, rfl⟩ := hp
      exact Or.inr ⟨[], hid, rest, rfl, fun h => List.not_mem_nil _⟩
    · rcases ih with hno | ⟨pa, hid, pb, rfl, hpa⟩
      · refine Or.inl fun hid hmem => ?_
        rcases List.mem_cons.mp hmem with h | h
        · exact hp ⟨hid, h.symm⟩
        · exact hno hid h
      · refine Or.inr ⟨p :: pa, hid, pb, rfl, fun h hmem => ?_⟩
        rcases List.mem_cons.mp hmem with hh | hh
        · exact hp ⟨h, hh.symm⟩
        · exact hpa h hh

theorem AllHid_append {xs ys : List Piece} (h : AllHid (xs ++ ys)) :
    AllHid xs ∧ AllHid ys :=
  ⟨fun i hid hm => h i hid (List.mem_append.mpr (Or.inl hm)),
   fun i hid hm => h i hid (List.mem_append.mpr (Or.inr hm))⟩

theorem AllHid_append_intro {xs ys : List Piece} (hx : AllHid xs)
    (hy : AllHid ys) : AllHid (xs ++ ys) := by
  intro i hid hm
  rcases List.mem_append.mp hm with h | h
  · exact hx i hid h
  · exact hy i hid h

theorem AllHid_cons {p : Piece} {ps : List Piece} (h : AllHid (p :: ps)) :
    AllHid ps := fun i hid hm => h i hid (by simp [hm])

theorem AllHid_cons_intro {p : Piece} {ps : List Piece}
    (hp : ∀ i hid, p = Piece.fslot i hid → hid = true) (hps : AllHid ps) :
    AllHid (p :: ps) := by
  intro i hid hm
  rcases List.mem_cons.mp hm with h | h
  · exact hp i hid h.symm
  · exact hps i hid h

theorem AllHid_txtO (A : List Char) : AllHid (txtO A) := by
  intro i hid hm
  have := mem_txtO hm
  cases this

theorem fslot_not_mem_txtO (i : FlagId) (hid : Bool) (A : List Char) :
    Piece.fslot i hid ∉ txtO A := by
  intro hm
  cases mem_txtO hm

/-- Membership in `allHidP` reflects to the original list up to the
hidden bit. -/
theorem fslot_mem_allHidP {i : FlagId} {hid : Bool} {ps : List Piece}
    (h : Piece.fslot i hid ∈ allHidP ps) : ∃ h', Piece.fslot i h' ∈ ps := by
  induction ps with
  | nil => simp [allHidP] at h
  | cons p rest ih =>
    cases p with
    | txt A =>
      have hh : Piece.fslot i hid ∈ allHidP rest := by simpa [allHidP] using h
      obtain ⟨h', hm⟩ := ih hh
      exact ⟨h', by simp [hm]⟩
    | fslot i' hid' =>
      have hh : (i = i' ∧ hid = true) ∨ Piece.fslot i hid ∈ allHidP rest := by
        simpa [allHidP] using h
      rcases hh with ⟨rfl, _⟩ | hh
      · exact ⟨hid', by simp⟩
      · obtain ⟨h', hm⟩ := ih hh
        exact ⟨h', by simp [hm]⟩
    | dslot r =>
      have hh : Piece.fslot i hid ∈ allHidP rest := by simpa [allHidP] using h
      obtain ⟨h', hm⟩ := ih hh
      exact ⟨h', by simp [hm]⟩

theorem allHidP_middle (ya yb : List Piece) (ℓ : FlagId) (hid : Bool) :
    allHidP (ya ++ Piece.fslot ℓ hid :: yb) =
      allHidP ya ++ Piece.fslot ℓ true :: allHidP yb := by
  rw [allHidP_append]
  rfl

/-- Replacing a non-text middle piece by another non-text piece keeps
the alternation. -/
theorem notTxtHead_middle {pa pb : List Piece} {p p' : Piece}
    (hp : ∀ A, p ≠ Piece.txt A) (hp' : ∀ A, p' ≠ Piece.txt A)
    (h : notTxtHead (pa ++ p :: pb)) : notTxtHead (pa ++ p' :: pb) := by
  cases pa with
  | nil =>
    cases p' with
    | txt A => exact absurd rfl (hp' A)
    | fslot i hid => trivial
    | dslot r => trivial
  | cons q pa' => cases q <;> simpa [notTxtHead] using h

theorem Alt_middle {pa pb : List Piece} {p p' : Piece}
    (hp : ∀ A, p ≠ Piece.txt A) (hp' : ∀ A, p' ≠ Piece.txt A)
    (h : Alt (pa ++ p :: pb)) : Alt (pa ++ p' :: pb) := by
  induction pa with
  | nil =>
    have hb : Alt pb := by
      cases p with
      | txt A => exact absurd rfl (hp A)
      | fslot i hid => exact h
      | dslot r => exact h
    cases p' with
    | txt A => exact absurd rfl (hp' A)
    | fslot i hid => exact hb
    | dslot r => exact hb
  | cons q pa' ih =>
    cases q with
    | txt A =>
      obtain ⟨hA, hh, hrest⟩ := h
      exact ⟨hA, notTxtHead_middle hp hp' hh, ih hrest⟩
    | fslot i hid => exact ih h
    | dslot r => exact ih h

theorem PiecesOK_middle {ks : List MK} {pa pb : List Piece} {p p' : Piece}
    (hOK : PiecesOK ks (pa ++ p :: pb)) (hp' : PieceOK ks p') :
    PiecesOK ks (pa ++ p' :: pb) := by
  intro q hq
  rcases List.mem_append.mp hq with h | h
  · exact hOK q (List.mem_append.mpr (Or.inl h))
  · rcases List.mem_cons.mp h with rfl | h
    · exact hp'
    · exact hOK q (List.mem_append.mpr (Or.inr (by simp [h])))

theorem NoDs_middle {pa pb : List Piece} {p p' : Piece}
    (h : NoDs (pa ++ p :: pb)) (hp' : ∀ r, p' ≠ Piece.dslot r) :
    NoDs (pa ++ p' :: pb) := by
  intro r hm
  rcases List.mem_append.mp hm with hh | hh
  · exact h r (List.mem_append.mpr (Or.inl hh))
  · rcases List.mem_cons.mp hh with hh | hh
    · exact hp' r hh.symm
    · exact h r (List.mem_append.mpr (Or.inr (by simp [hh])))

/-- The matcher set after all three hide passes. -/
def kall : List MK :=
  [MK.mfk FlagId.white, MK.mfk FlagId.yellow, MK.mfk FlagId.red]

theorem mfk_mem_kall (ℓ : FlagId) : MK.mfk ℓ ∈ kall := by
  cases ℓ <;> simp [kall]

theorem AllHid_of_scanmem {ps ps' : List Piece} {j : FlagId}
    (hmem : ∀ p ∈ ps',
      (∃ A, p = Piece.txt A) ∨ p = Piece.fslot j true ∨ p ∈ ps)
    (h : AllHid ps) : AllHid ps' := by
  intro i hid hm
  rcases hmem _ hm with ⟨A, hA⟩ | hj | hin
  · simp at hA
  · simp at hj
    exact hj.2
  · exact h i hid hin

theorem NoDs_of_scanmem {ps ps' : List Piece} {j : FlagId}
    (hmem : ∀ p ∈ ps',
      (∃ A, p = Piece.txt A) ∨ p = Piece.fslot j true ∨ p ∈ ps)
    (h : NoDs ps) : NoDs ps' := by
  intro r hm
  rcases hmem _ hm with ⟨A, hA⟩ | hj | hin
  · simp at hA
  · simp at hj
  · exact h r hin

/-- The three hide passes turn any HTML string into a decomposition:
inert text around hidden flag slots, with no date slots. -/
theorem hideAll_struct (html : List Char) :
    ∃ ps, hideAllFlags html = flat ps ∧ Alt ps ∧ PiecesOK kall ps ∧
      AllHid ps ∧ NoDs ps := by
  have h0 : ∃ ps₀, html = flat ps₀ ∧ Alt ps₀ ∧ PiecesOK ([] : List MK) ps₀ ∧
      AllHid ps₀ ∧ NoDs ps₀ := by
    by_cases hh : html = []
    · exact ⟨[], by simp [hh, flat], trivial,
        fun p hp => absurd hp (List.not_mem_nil p),
        fun i hid hm => absurd hm (List.not_mem_nil _),
        fun r hm => absurd hm (List.not_mem_nil _)⟩
    · refine ⟨[Piece.txt html], by simp [flat, pieceStr],
        ⟨hh, trivial, trivial⟩, ?_, ?_, ?_⟩
      · intro p hp
        rcases List.mem_cons.mp hp with rfl | hp
        · exact fun m hm => absurd hm (List.not_mem_nil m)
        · exact absurd hp (List.not_mem_nil p)
      · intro i hid hm
        rcases List.mem_cons.mp hm with h | h
        · cases h
        · exact absurd h (List.not_mem_nil _)
      · intro r hm
        rcases List.mem_cons.mp hm with h | h
        · cases h
        · exact absurd h (List.not_mem_nil _)
  obtain ⟨ps₀, he₀, hAlt₀, hOK₀, hHid₀, hDs₀⟩ := h0
  obtain ⟨ps₁, he₁, hAlt₁, hOK₁, hmem₁, hh₁⟩ :=
    hideScan .red [] ((flat ps₀).length + 1) ps₀ (by omega) hAlt₀ hOK₀
  obtain ⟨ps₂, he₂, hAlt₂, hOK₂, hmem₂, hh₂⟩ :=
    hideScan .yellow [MK.mfk .red] ((flat ps₁).length + 1) ps₁ (by omega)
      hAlt₁ hOK₁
  obtain ⟨ps₃, he₃, hAlt₃, hOK₃, hmem₃, hh₃⟩ :=
    hideScan .white [MK.mfk .yellow, MK.mfk .red] ((flat ps₂).length + 1) ps₂
      (by omega) hAlt₂ hOK₂
  refine ⟨ps₃, ?_, hAlt₃, hOK₃, ?_, ?_⟩
  · show hideFlagPass .white (hideFlagPass .yellow (hideFlagPass .red html)) = _
    rw [he₀, he₁, he₂, he₃]
  · exact AllHid_of_scanmem hmem₃
      (AllHid_of_scanmem hmem₂ (AllHid_of_scanmem hmem₁ hHid₀))
  · exact NoDs_of_scanmem hmem₃
      (NoDs_of_scanmem hmem₂ (NoDs_of_scanmem hmem₁ hDs₀))

/-- Re-running all three hide passes on a decomposition whose text is
already inert just re-hides every flag slot. -/
theorem hideAll_eval (ks : List MK) (hr : MK.mfk .red ∈ ks)
    (hy : MK.mfk .yellow ∈ ks) (hw : MK.mfk .white ∈ ks)
    (ps : List Piece) (hAlt : Alt ps) (hOK : PiecesOK ks ps) :
    hideAllFlags (flat ps) = flat (allHidP ps) := by
  show hideFlagPass .white (hideFlagPass .yellow (hideFlagPass .red (flat ps))) = _
  rw [hidePass_eval .red ks hr ps hAlt hOK,
    hidePass_eval .yellow ks hy _ (Alt_hideP _ hAlt) (PiecesOK_hideP _ hOK),
    hidePass_eval .white ks hw _ (Alt_hideP _ (Alt_hideP _ hAlt))
      (PiecesOK_hideP _ (PiecesOK_hideP _ hOK)),
    hideP_comp]

/-- Second application when the template decomposition carries no `ℓ`
slot: both the hide and show passes fix it, the date pass by hypothesis. -/
theorem secondApp_noSlot (ℓ : FlagId) (D : List Char) (ps₄ : List Piece)
    (hAlt : Alt ps₄) (hOK : PiecesOK kall ps₄) (hHid : AllHid ps₄)
    (hNo : ∀ hid, Piece.fslot ℓ hid ∉ ps₄)
    (hdate : updateDate D (flat ps₄) = flat ps₄) :
    updateDate D (replaceFirstLit (hiddenFlag ℓ) (shownFlag ℓ)
      (hideAllFlags (flat ps₄))) = flat ps₄ := by
  rw [hideAll_eval kall (mfk_mem_kall _) (mfk_mem_kall _) (mfk_mem_kall _)
      ps₄ hAlt hOK,
    allHidP_eq_self hHid,
    showPass_skip_all ℓ kall (mfk_mem_kall ℓ) ps₄ hAlt hOK hNo,
    hdate]

/-- Second application around the shown `ℓ` slot: the hide passes
re-hide it, the show pass un-hides the same slot again, the date pass
fixes the result by hypothesis. -/
theorem secondApp_slot (ℓ : FlagId) (D : List Char) (ya yb : List Piece)
    (hAlt : Alt (ya ++ Piece.fslot ℓ false :: yb))
    (hOK : PiecesOK kall (ya ++ Piece.fslot ℓ false :: yb))
    (hHidA : AllHid ya) (hHidB : AllHid yb)
    (hfree : ∀ h, Piece.fslot ℓ h ∉ ya)
    (hdate : updateDate D (flat (ya ++ Piece.fslot ℓ false :: yb)) =
      flat (ya ++ Piece.fslot ℓ false :: yb)) :
    updateDate D (replaceFirstLit (hiddenFlag ℓ) (shownFlag ℓ)
      (hideAllFlags (flat (ya ++ Piece.fslot ℓ false :: yb)))) =
      flat (ya ++ Piece.fslot ℓ false :: yb) := by
  have hAlt' : Alt (ya ++ Piece.fslot ℓ true :: yb) :=
    Alt_middle (fun A h => Piece.noConfusion h) (fun A h => Piece.noConfusion h)
      hAlt
  have hOK' : PiecesOK kall (ya ++ Piece.fslot ℓ true :: yb) :=
    PiecesOK_middle hOK (show PieceOK kall (Piece.fslot ℓ true) from trivial)
  rw [hideAll_eval kall (mfk_mem_kall _) (mfk_mem_kall _) (mfk_mem_kall _)
      _ hAlt hOK,
    allHidP_middle, allHidP_eq_self hHidA, allHidP_eq_self hHidB,
    showPass_toggle ℓ kall (mfk_mem_kall ℓ) ya yb hAlt' hOK' hfree,
    hdate]

/-- C7: the template mutation of `updateHTML` — hide all three overlay
flag divs, un-hide exactly the div of the status level, then substitute
the date span text — is idempotent: for every template string and every
`AlertStatus`, applying the mutation twice (with the runtime locale date
string, which never contains `<`) yields the same output as applying it
once, with no accumulation of hidden markers. -/
theorem updateHTMLMutation_idem (status : AlertStatus) (D html : List Char)
    (hD : ∀ c ∈ D, c ≠ '<') :
    updateHTMLMutation status.level D
        (updateHTMLMutation status.level D html) =
      updateHTMLMutation status.level D html := by
  obtain ⟨ps₃, hx₁, hAlt₃, hOK₃, hHid₃, hDs₃⟩ := hideAll_struct html
  rcases first_fslot_split (levelToId status.level) ps₃ with hno |
    ⟨pa, hid₀, pb, hps3, hpafree⟩
  · -- no flag slot of the level's id exists anywhere
    have hshow : showFlag status.level (hideAllFlags html) = flat ps₃ := by
      rw [hx₁]
      exact showPass_skip_all (levelToId status.level) kall
        (mfk_mem_kall _) ps₃ hAlt₃ hOK₃ hno
    rcases dateScan kall D hD ps₃ hAlt₃ hOK₃ hDs₃ with ⟨heq, hOK₄⟩ |
      ⟨pa', A, U, rd, V, pb', hps, hAeq, hrd, hout, hAltOut, houtOK,
        hpreOK, hpreDs, hhh⟩
    · -- no date span either: the mutation is the identity here
      have hg : updateHTMLMutation status.level D html = flat ps₃ := by
        show updateDate D (showFlag status.level (hideAllFlags html)) = _
        rw [hshow, heq]
      rw [hg]
      exact secondApp_noSlot (levelToId status.level) D ps₃ hAlt₃ hOK₃
        hHid₃ hno heq
    · -- a date span was rewritten inside a text region
      have hg : updateHTMLMutation status.level D html =
          flat (pa' ++ txtO U ++ Piece.dslot D :: txtO V ++ pb') := by
        show updateDate D (showFlag status.level (hideAllFlags html)) = _
        rw [hshow]
        exact hout
      have hgroup : pa' ++ txtO U ++ Piece.dslot D :: txtO V ++ pb' =
          (pa' ++ txtO U) ++ Piece.dslot D :: (txtO V ++ pb') := by
        simp [List.append_assoc]
      have hAltg : Alt ((pa' ++ txtO U) ++ Piece.dslot D :: (txtO V ++ pb')) := by
        rw [← hgroup]
        exact hAltOut
      have hOKg : PiecesOK kall
          ((pa' ++ txtO U) ++ Piece.dslot D :: (txtO V ++ pb')) := by
        rw [← hgroup]
        exact houtOK
      have hdate : updateDate D
          (flat (pa' ++ txtO U ++ Piece.dslot D :: txtO V ++ pb')) =
          flat (pa' ++ txtO U ++ Piece.dslot D :: txtO V ++ pb') := by
        rw [hgroup]
        exact datePass_at_dslot kall D hD (pa' ++ txtO U) (txtO V ++ pb')
          hAltg hOKg
          (fun A hA => hpreOK (Piece.txt A) hA MK.mdk (by simp)) hpreDs
      have hHid4 : AllHid (pa' ++ txtO U ++ Piece.dslot D :: txtO V ++ pb') := by
        intro i hid hm
        rcases List.mem_append.mp hm with hm | hm
        · rcases List.mem_append.mp hm with hm | hm
          · rcases List.mem_append.mp hm with hm | hm
            · exact hHid₃ i hid (by
                rw [hps]
                exact List.mem_append.mpr (Or.inl hm))
            · exact absurd (mem_txtO hm) (fun h => Piece.noConfusion h)
          · rcases List.mem_cons.mp hm with h | h
            · cases h
            · exact absurd (mem_txtO h) (fun h => Piece.noConfusion h)
        · exact hHid₃ i hid (by
            rw [hps]
            exact List.mem_append.mpr (Or.inr (by simp [hm])))
      have hNo4 : ∀ hid, Piece.fslot (levelToId status.level) hid ∉
          pa' ++ txtO U ++ Piece.dslot D :: txtO V ++ pb' := by
        intro hid hm
        rcases List.mem_append.mp hm with hm | hm
        · rcases List.mem_append.mp hm with hm | hm
          · rcases List.mem_append.mp hm with hm | hm
            · exact hno hid (by
                rw [hps]
                exact List.mem_append.mpr (Or.inl hm))
            · exact absurd (mem_txtO hm) (fun h => Piece.noConfusion h)
          · rcases List.mem_cons.mp hm with h | h
            · cases h
            · exact absurd (mem_txtO h) (fun h => Piece.noConfusion h)
        · exact hno hid (by
            rw [hps]
            exact List.mem_append.mpr (Or.inr (by simp [hm])))
      rw [hg]
      exact secondApp_noSlot (levelToId status.level) D _ hAltOut houtOK
        hHid4 hNo4 hdate
  · -- the first slot of the level's id exists and is hidden
    have hid₀true : hid₀ = true :=
      hHid₃ (levelToId status.level) hid₀ (by rw [hps3]; simp)
    subst hid₀true
    rw [hps3] at hAlt₃ hOK₃ hHid₃ hDs₃
    obtain ⟨hHidpa, hHidslotpb⟩ := AllHid_append hHid₃
    have hHidpb : AllHid pb := AllHid_cons hHidslotpb
    have hshow : showFlag status.level (hideAllFlags html) =
        flat (pa ++ Piece.fslot (levelToId status.level) false :: pb) := by
      rw [hx₁, hps3]
      exact showPass_toggle (levelToId status.level) kall (mfk_mem_kall _)
        pa pb hAlt₃ hOK₃ hpafree
    have hAltq : Alt (pa ++ Piece.fslot (levelToId status.level) false :: pb) :=
      Alt_middle (fun A h => Piece.noConfusion h)
        (fun A h => Piece.noConfusion h) hAlt₃
    have hOKq : PiecesOK kall
        (pa ++ Piece.fslot (levelToId status.level) false :: pb) :=
      PiecesOK_middle hOK₃
        (show PieceOK kall (Piece.fslot (levelToId status.level) false) from
          trivial)
    have hDsq : NoDs (pa ++ Piece.fslot (levelToId status.level) false :: pb) :=
      NoDs_middle hDs₃ (fun r h => Piece.noConfusion h)
    rcases dateScan kall D hD
        (pa ++ Piece.fslot (levelToId status.level) false :: pb)
        hAltq hOKq hDsq with ⟨heq, hOK₄⟩ |
      ⟨pa', A, U, rd, V, pb', hps, hAeq, hrd, hout, hAltOut, houtOK,
        hpreOK, hpreDs, hhh⟩
    · -- no date span: second pass re-hides and re-shows the same slot
      have hg : updateHTMLMutation status.level D html =
          flat (pa ++ Piece.fslot (levelToId status.level) false :: pb) := by
        show updateDate D (showFlag status.level (hideAllFlags html)) = _
        rw [hshow, heq]
      rw [hg]
      exact secondApp_slot (levelToId status.level) D pa pb hAltq hOKq
        hHidpa hHidpb hpafree heq
    · -- both a shown slot and a rewritten date span exist
      have hg : updateHTMLMutation status.level D html =
          flat (pa' ++ txtO U ++ Piece.dslot D :: txtO V ++ pb') := by
        show updateDate D (showFlag status.level (hideAllFlags html)) = _
        rw [hshow]
        exact hout
      have hgroup : pa' ++ txtO U ++ Piece.dslot D :: txtO V ++ pb' =
          (pa' ++ txtO U) ++ Piece.dslot D :: (txtO V ++ pb') := by
        simp [List.append_assoc]
      have hAltg : Alt ((pa' ++ txtO U) ++ Piece.dslot D :: (txtO V ++ pb')) := by
        rw [← hgroup]
        exact hAltOut
      have hOKg : PiecesOK kall
          ((pa' ++ txtO U) ++ Piece.dslot D :: (txtO V ++ pb')) := by
        rw [← hgroup]
        exact houtOK
      have hdate : updateDate D
          (flat (pa' ++ txtO U ++ Piece.dslot D :: txtO V ++ pb')) =
          flat (pa' ++ txtO U ++ Piece.dslot D :: txtO V ++ pb') := by
        rw [hgroup]
        exact datePass_at_dslot kall D hD (pa' ++ txtO U) (txtO V ++ pb')
          hAltg hOKg
          (fun A hA => hpreOK (Piece.txt A) hA MK.mdk (by simp)) hpreDs
      rcases middle_split hps (fun h => Piece.noConfusion h) with
        ⟨ws, hpa', hpb⟩ | ⟨ws, hpa, hpb'⟩
      · -- the shown slot precedes the rewritten text region
        have hsplit : pa' ++ txtO U ++ Piece.dslot D :: txtO V ++ pb' =
            pa ++ Piece.fslot (levelToId status.level) false ::
              (ws ++ txtO U ++ Piece.dslot D :: txtO V ++ pb') := by
          rw [hpa']
          simp [List.append_assoc]
        have hHidyb : AllHid (ws ++ txtO U ++ Piece.dslot D :: txtO V ++ pb') := by
          have hpbsplit : AllHid ws ∧ AllHid (Piece.txt A :: pb') := by
            rw [hpb] at hHidpb
            exact AllHid_append hHidpb
          refine AllHid_append_intro (AllHid_append_intro
            (AllHid_append_intro hpbsplit.1 (AllHid_txtO U)) ?_)
            (AllHid_cons hpbsplit.2)
          exact AllHid_cons_intro (fun i hid h => Piece.noConfusion h)
            (AllHid_txtO V)
        rw [hg, hsplit]
        rw [hsplit] at hdate hAltOut houtOK
        exact secondApp_slot (levelToId status.level) D pa _ hAltOut houtOK
          hHidpa hHidyb hpafree hdate
      · -- the rewritten text region precedes the shown slot
        have hsplit : pa' ++ txtO U ++ Piece.dslot D :: txtO V ++ pb' =
            (pa' ++ txtO U ++ Piece.dslot D :: txtO V ++ ws) ++
              Piece.fslot (levelToId status.level) false :: pb := by
          rw [hpb']
          simp [List.append_assoc]
        have hpasplit : AllHid pa' ∧ AllHid (Piece.txt A :: ws) := by
          rw [hpa] at hHidpa
          exact AllHid_append hHidpa
        have hHidya : AllHid (pa' ++ txtO U ++ Piece.dslot D :: txtO V ++ ws) := by
          refine AllHid_append_intro (AllHid_append_intro
            (AllHid_append_intro hpasplit.1 (AllHid_txtO U)) ?_)
            (AllHid_cons hpasplit.2)
          exact AllHid_cons_intro (fun i hid h => Piece.noConfusion h)
            (AllHid_txtO V)
        have hfreya : ∀ h, Piece.fslot (levelToId status.level) h ∉
            pa' ++ txtO U ++ Piece.dslot D :: txtO V ++ ws := by
          intro h hm
          rcases List.mem_append.mp hm with hm | hm
          · rcases List.mem_append.mp hm with hm | hm
            · rcases List.mem_append.mp hm with hm | hm
              · exact hpafree h (by rw [hpa]; exact List.mem_append.mpr (Or.inl hm))
              · exact absurd (mem_txtO hm) (fun hh => Piece.noConfusion hh)
            · rcases List.mem_cons.mp hm with hh | hh
              · cases hh
              · exact absurd (mem_txtO hh) (fun hh => Piece.noConfusion hh)
          · exact hpafree h (by
              rw [hpa]
              exact List.mem_append.mpr (Or.inr (by simp [hm])))
        rw [hg, hsplit]
        rw [hsplit] at hdate hAltOut houtOK
        exact secondApp_slot (levelToId status.level) D _ pb hAltOut houtOK
          hHidya hHidpb hfreya hdate

/-- Concrete instance of the mutation idempotence: a real locale date
string and a small template. -/
theorem updateHTMLMutation_idem_witness :
    (∀ c ∈ "Monday, October 12, 2026".data, c ≠ '<') ∧
    updateHTMLMutation AlertLevel.high "Monday, October 12, 2026".data
        (updateHTMLMutation AlertLevel.high "Monday, October 12, 2026".data
          "<p>swim advisory</p>".data) =
      updateHTMLMutation AlertLevel.high "Monday, October 12, 2026".data
        "<p>swim advisory</p>".data :=
  ⟨by decide,
   updateHTMLMutation_idem
     ⟨AlertLevel.high, "STRONG CURRENTS", "Strong Currents",
       "Corrientes Fuertes"⟩
     "Monday, October 12, 2026".data "<p>swim advisory</p>".data (by decide)⟩

end SwinSafe
